import Mathlib

/-!
# Verification of the png2avif container-patching core

This file gives a shallow embedding of the computational core of
`png2avif.py` and proves properties of it:

* `parseBoxHeader`  embeds `_parse_box_header`;
* `findBox`         embeds the box-walking `while` loops (top-level `meta`
  search, nested `hdlr` search, nested `iloc` search), which all follow the
  same pattern: parse a header, stop on parse failure, stop on the sought
  tag, otherwise advance by the parsed size;
* `patchIloc`       embeds `_patch_iloc_offsets`;
* `injectHandlerDescription` embeds `_inject_handler_description` (with the
  file read/write modelled away: the function maps the input buffer to
  either `.ok none` (silent no-op, nothing written), `.ok (some d)` (the
  buffer `d` is written), or `.error ()` (a Python exception escapes —
  the only in-scope exception source is `int.to_bytes` raising
  `OverflowError`, modelled by `toBytes`);
* `toUserCommentBytes` embeds `_to_user_comment_bytes`;
* `extractSd`       embeds `_extract_sd_parameters`, with `zlib.decompress`
  as an oracle parameter `inflate` (external C library) and text values as
  lists of Unicode code points (`latin-1` decoding is the identity byte →
  code-point map; UTF-8 decoding is modelled exactly by `utf8Decode`).

Bytes are modelled as `List Nat`; every byte produced by Python is `< 256`
and `int.from_bytes` of a slice is `beVal`/`readBE`. Python slices
truncate out of range, which `List.drop`/`List.take` reproduce.

Loops are written with an explicit fuel argument large enough to be
irrelevant (stability lemmas are proved), so that everything computes by
`rfl`/`decide`.
-/

/-- Big-endian value of a byte list (Python `int.from_bytes(bs, "big")`). -/
def beVal (l : List Nat) : Nat := l.foldl (fun a b => a * 256 + b) 0

/-- Python slice `l[a:b]`. -/
def sliceL (l : List Nat) (a b : Nat) : List Nat := (l.drop a).take (b - a)

/-- Python `int.from_bytes(data[off:off+n], "big")`. -/
def readBE (l : List Nat) (off n : Nat) : Nat := beVal (sliceL l off (off + n))

/-- Big-endian encoding of `v` on `w` bytes (value taken mod `256^w`);
faithful to Python `int.to_bytes(w, "big")` whenever `v < 256^w`. -/
def beBytes : Nat → Nat → List Nat
  | 0, _ => []
  | Nat.succ w, v => beBytes w (v / 256) ++ [v % 256]

/-- Python `int.to_bytes(w, "big")` on a possibly negative int: raises
`OverflowError` (modelled as `.error ()`) when the value is negative or
does not fit in `w` bytes. -/
def toBytes (w : Nat) (v : Int) : Except Unit (List Nat) :=
  if v < 0 ∨ (256 : Int) ^ w ≤ v then .error () else .ok (beBytes w v.toNat)

/-- Python bytearray slice assignment `l[pos:pos+len(r)] = r`
(for in-bounds, length-preserving writes, the only kind the code does). -/
def overwrite (l : List Nat) (pos : Nat) (r : List Nat) : List Nat :=
  l.take pos ++ r ++ l.drop (pos + r.length)

/-- `b"meta"`. -/
def tagMeta : List Nat := [109, 101, 116, 97]
/-- `b"hdlr"`. -/
def tagHdlr : List Nat := [104, 100, 108, 114]
/-- `b"iloc"`. -/
def tagIloc : List Nat := [105, 108, 111, 99]
/-- `b"tEXt"`. -/
def tagTEXt : List Nat := [116, 69, 88, 116]
/-- `b"zTXt"`. -/
def tagZTXt : List Nat := [122, 84, 88, 116]
/-- `b"iTXt"`. -/
def tagITXt : List Nat := [105, 84, 88, 116]
/-- `b"IEND"`. -/
def tagIEND : List Nat := [73, 69, 78, 68]
/-- The 8-byte PNG signature `\x89PNG\r\n\x1a\n`. -/
def pngSig : List Nat := [137, 80, 78, 71, 13, 10, 26, 10]
/-- `b"parameters"`. -/
def kwParameters : List Nat := [112, 97, 114, 97, 109, 101, 116, 101, 114, 115]
/-- `b"libavif"`, the injected handler description. -/
def libavifBytes : List Nat := [108, 105, 98, 97, 118, 105, 102]
/-- `b"ASCII\x00\x00\x00"`, the EXIF ASCII charset marker. -/
def asciiMarker : List Nat := [65, 83, 67, 73, 73, 0, 0, 0]
/-- `b"UNICODE\x00"`, the EXIF Unicode charset marker. -/
def unicodeMarker : List Nat := [85, 78, 73, 67, 79, 68, 69, 0]

/-- Embeds `_parse_box_header(data, offset, end)`: returns
`(total_size, header_size, type_tag)` or `none`. -/
def parseBoxHeader (data : List Nat) (offset e : Nat) :
    Option (Nat × Nat × List Nat) :=
  if e < offset + 8 then none
  else
    let size0 := readBE data offset 4
    let boxType := sliceL data (offset + 4) (offset + 8)
    if size0 = 1 then
      if e < offset + 16 then none
      else
        let size := readBE data (offset + 8) 8
        if size < 16 ∨ e < offset + size then none
        else some (size, 16, boxType)
    else
      let size := if size0 = 0 then e - offset else size0
      if size < 8 ∨ e < offset + size then none
      else some (size, 8, boxType)

/-- Fueled box walk: from offset `i`, bounded by `e`, find the first box
with tag `t`; `none` on parse failure or when the walk runs past `e`.
Each loop iteration advances `i` by at least 8, so fuel `e + 1 - i`
(used by `findBox`) always suffices. -/
def findBoxFuel (t : List Nat) (data : List Nat) (e : Nat) :
    Nat → Nat → Option (Nat × Nat × Nat)
  | 0, _ => none
  | Nat.succ n, i =>
    if e ≤ i then none
    else
      match parseBoxHeader data i e with
      | none => none
      | some (size, headerSize, boxType) =>
        if boxType = t then some (i, size, headerSize)
        else findBoxFuel t data e n (i + size)

/-- The box-walking `while` loops of the Python code (stop on first tag
match, `none` on parse failure or running out of the `[i, e)` range). -/
def findBox (t : List Nat) (data : List Nat) (i e : Nat) :
    Option (Nat × Nat × Nat) :=
  findBoxFuel t data e (e + 1 - i) i

/-- One extent-offset read–modify–write:
`old = int.from_bytes(iloc[cur:cur+w]); (old + d).to_bytes(w)` written back. -/
def writePatched (il : List Nat) (cur w : Nat) (d : Int) :
    Except Unit (List Nat) :=
  match toBytes w ((readBE il cur w : Int) + d) with
  | .error e => .error e
  | .ok bs => .ok (overwrite il cur bs)

/-- The inner `for _ in range(extent_count)` loop of `_patch_iloc_offsets`:
`.ok none` models the `return meta_payload` bail-outs (truncated table),
`.error` models the escaping `OverflowError` from `to_bytes`. -/
def patchExtents (offSz lenSz idxSz : Nat) (useIdx : Bool) (d : Int) :
    Nat → List Nat → Nat → Except Unit (Option (List Nat × Nat))
  | 0, il, cur => .ok (some (il, cur))
  | Nat.succ n, il, cur =>
    if useIdx = true ∧ 0 < idxSz ∧ il.length < cur + idxSz then .ok none
    else
      let cur1 := if useIdx = true ∧ 0 < idxSz then cur + idxSz else cur
      if il.length < cur1 + offSz then .ok none
      else
        match (if 0 < offSz then writePatched il cur1 offSz d else .ok il) with
        | .error e => .error e
        | .ok il2 =>
          if il2.length < cur1 + offSz + lenSz then .ok none
          else patchExtents offSz lenSz idxSz useIdx d n il2
            (cur1 + offSz + lenSz)

/-- The outer `for _ in range(item_count)` loop of `_patch_iloc_offsets`. -/
def patchItems (version offSz lenSz baseSz idxSz : Nat) (d : Int) :
    Nat → List Nat → Nat → Except Unit (Option (List Nat × Nat))
  | 0, il, cur => .ok (some (il, cur))
  | Nat.succ n, il, cur =>
    let idw := if version < 2 then 2 else 4
    if il.length < cur + idw then .ok none
    else
      let cur1 := cur + idw
      if (version = 1 ∨ version = 2) ∧ il.length < cur1 + 2 then .ok none
      else
        let cur2 := if version = 1 ∨ version = 2 then cur1 + 2 else cur1
        if il.length < cur2 + 2 then .ok none
        else
          let cur3 := cur2 + 2
          if il.length < cur3 + baseSz then .ok none
          else
            let cur4 := cur3 + baseSz
            if il.length < cur4 + 2 then .ok none
            else
              let ec := readBE il cur4 2
              match patchExtents offSz lenSz idxSz
                  (version = 1 ∨ version = 2) d ec il (cur4 + 2) with
              | .error e => .error e
              | .ok none => .ok none
              | .ok (some (il2, cur5)) =>
                patchItems version offSz lenSz baseSz idxSz d n il2 cur5

/-- Embeds `_patch_iloc_offsets(meta_payload, delta)`.  `.ok p` is the
returned payload (possibly the unmodified input), `.error ()` is an
escaping `OverflowError` from `to_bytes`. -/
def patchIloc (payload : List Nat) (d : Int) : Except Unit (List Nat) :=
  if payload.length < 4 then .ok payload
  else
    match findBox tagIloc payload 4 payload.length with
    | none => .ok payload
    | some (i, size, headerSize) =>
      let iloc := sliceL payload i (i + size)
      let cur0 := headerSize + 4
      if iloc.length < cur0 + 2 then .ok payload
      else
        let version := iloc.getD 8 0
        if ¬(version = 0 ∨ version = 1 ∨ version = 2) then .ok payload
        else
          let offSz := iloc.getD cur0 0 / 16
          let lenSz := iloc.getD cur0 0 % 16
          let baseSz := iloc.getD (cur0 + 1) 0 / 16
          let idxSz := if version = 1 ∨ version = 2
            then iloc.getD (cur0 + 1) 0 % 16 else 0
          let ics := if version < 2 then 2 else 4
          if iloc.length < cur0 + 2 + ics then .ok payload
          else
            let itemCount := readBE iloc (cur0 + 2) ics
            match patchItems version offSz lenSz baseSz idxSz d
                itemCount iloc (cur0 + 2 + ics) with
            | .error e => .error e
            | .ok none => .ok payload
            | .ok (some (il2, _)) =>
              .ok (payload.take i ++ il2 ++ payload.drop (i + size))

/-- Embeds `_inject_handler_description(path, description)` on the file
bytes `data`: `.ok none` = silent no-op (file untouched), `.ok (some d)` =
the whole buffer `d` is written in one `write_bytes`, `.error ()` = a
Python exception (`OverflowError` from `to_bytes`) escapes to the caller. -/
def injectHandlerDescription (data : List Nat) (description : List Nat) :
    Except Unit (Option (List Nat)) :=
  match findBox tagMeta data 0 data.length with
  | none => .ok none
  | some (metaOffset, metaSize, metaHeaderSize) =>
    let metaStart := metaOffset + metaHeaderSize
    let metaEnd := metaOffset + metaSize
    if data.length < metaEnd ∨ metaEnd < metaStart + 4 then .ok none
    else
      let metaPayload := sliceL data metaStart metaEnd
      match findBox tagHdlr metaPayload 4 metaPayload.length with
      | none => .ok none
      | some (h, hdlrSize, hdlrHeaderSize) =>
        let hdlrPayload := sliceL metaPayload (h + hdlrHeaderSize) (h + hdlrSize)
        if hdlrPayload.length < 24 then .ok none
        else
          let currentName := hdlrPayload.drop 24
          if ¬(currentName = [] ∨ currentName = [0]) then .ok none
          else
            let newName := description ++ [0]
            if newName.length ≤ currentName.length then .ok none
            else
              let dN := newName.length - currentName.length
              match toBytes 4 ((hdlrSize : Int) + (dN : Int)) with
              | .error e => .error e
              | .ok sizeBytesH =>
                let newHdlrBox := sizeBytesH ++ tagHdlr ++
                  (hdlrPayload.take 24 ++ newName)
                let updated := metaPayload.take h ++ newHdlrBox ++
                  metaPayload.drop (h + hdlrSize)
                match patchIloc updated (dN : Int) with
                | .error e => .error e
                | .ok updated2 =>
                  match toBytes 4 ((metaSize : Int) + (dN : Int)) with
                  | .error e => .error e
                  | .ok sizeBytesM =>
                    .ok (some (data.take metaOffset ++
                      (sizeBytesM ++ tagMeta ++ updated2) ++
                      data.drop (metaOffset + metaSize)))

/-- The buffer on disk after one run of the injector: the written buffer
on a successful patch, the unchanged input on a silent no-op or on an
escaping exception (the single `write_bytes` never happened). -/
def afterInject (data : List Nat) : List Nat :=
  match injectHandlerDescription data libavifBytes with
  | .ok (some d) => d
  | _ => data

/-- UTF-16LE encoding of a list of Unicode scalar values
(Python `str.encode("utf-16le")` on surrogate-free text). -/
def utf16le (text : List Nat) : List Nat :=
  (text.map (fun c =>
    if c < 0x10000 then [c % 256, c / 256]
    else
      let v := c - 0x10000
      let hi := 0xD800 + v / 0x400
      let lo := 0xDC00 + v % 0x400
      [hi % 256, hi / 256, lo % 256, lo / 256])).flatten

/-- Embeds `_to_user_comment_bytes(text)`; `text` is the list of Unicode
code points of the Python `str` (surrogate-free, as produced by the
`latin-1`/`utf-8` decoders feeding it).  All-ASCII text is ASCII-encoded
(identity on code points < 128) after the ASCII marker; otherwise the
text is UTF-16LE-encoded after the Unicode marker. -/
def toUserCommentBytes (text : List Nat) : List Nat :=
  if text.all (fun c => c < 128) then asciiMarker ++ text
  else unicodeMarker ++ utf16le text

/-- The computed header size of the claim (16 with an extended-size marker,
else 8); spec-side companion of `parseBoxHeader`. -/
def boxHeaderOf (data : List Nat) (offset : Nat) : Nat :=
  if readBE data offset 4 = 1 then 16 else 8

/-- The computed total size of the claim (64-bit size after an
extended-size marker, remainder of the range for a stored 0, else the
stored 32-bit field); spec-side companion of `parseBoxHeader`. -/
def boxSizeOf (data : List Nat) (offset e : Nat) : Nat :=
  if readBE data offset 4 = 1 then readBE data (offset + 8) 8
  else if readBE data offset 4 = 0 then e - offset else readBE data offset 4

/-- A `hdlr` box (32 bytes, handler type `pict`) whose trailing name field
is empty — the precondition under which the injector patches. -/
def hdlrBoxE : List Nat := [0, 0, 0, 32] ++ tagHdlr ++
  [0, 0, 0, 0, 0, 0, 0, 0, 112, 105, 99, 116, 0, 0, 0, 0, 0, 0, 0, 0, 0, 0, 0, 0]

/-- A minimal AVIF-like file: one `meta` box (32-bit size header)
containing a full-box header and an empty-named `hdlr` box. -/
def fileA : List Nat := [0, 0, 0, 44] ++ tagMeta ++ [0, 0, 0, 0] ++ hdlrBoxE

/-- Like `fileA` but the `meta` box uses a 64-bit extended size header
(stored size field 1, true size 52 in the following 8 bytes). -/
def fileB : List Nat := [0, 0, 0, 1] ++ tagMeta ++
  [0, 0, 0, 0, 0, 0, 0, 52] ++ [0, 0, 0, 0] ++ hdlrBoxE

/-- What the injector writes for `fileB`: the rebuilt `meta` box claims
size 60 in a 4-byte header although only 52 bytes exist. -/
def fileBOut : List Nat := [0, 0, 0, 60] ++ tagMeta ++ [0, 0, 0, 0] ++
  [0, 0, 0, 40] ++ tagHdlr ++
  [0, 0, 0, 0, 0, 0, 0, 0, 112, 105, 99, 116, 0, 0, 0, 0, 0, 0, 0, 0, 0, 0, 0, 0] ++
  libavifBytes ++ [0]

/-- A version-0 `iloc` box with one item, one extent, 4-byte offset field
holding `0xFFFFFFFF` — patching adds the positive delta and overflows. -/
def ilocBoxC : List Nat := [0, 0, 0, 30] ++ tagIloc ++ [0, 0, 0, 0] ++
  [68, 0] ++ [0, 1] ++ [0, 1, 0, 0, 0, 1, 255, 255, 255, 255, 0, 0, 0, 10]

/-- A file whose `meta` box contains an empty-named `hdlr` and `ilocBoxC`;
injection reaches the iloc patch and the offset write overflows 4 bytes. -/
def fileC : List Nat := [0, 0, 0, 74] ++ tagMeta ++ [0, 0, 0, 0] ++
  hdlrBoxE ++ ilocBoxC

/-- An `iloc` box with a 64-bit extended size header whose full-box
version byte (at box offset 16) is 3 — an unsupported version. -/
def ilocBoxD : List Nat := [0, 0, 0, 1] ++ tagIloc ++
  [0, 0, 0, 0, 0, 0, 0, 38] ++ [3, 0, 0, 0] ++ [68, 0] ++ [0, 1] ++
  [0, 1, 0, 0, 0, 1, 0, 0, 0, 100, 0, 0, 0, 10]

/-- A meta payload (full-box header then `ilocBoxD`). -/
def payD : List Nat := [0, 0, 0, 0] ++ ilocBoxD

/-- `payD` after the patcher (delta 7) has misread the version as 0 and
rewritten the extent offset 100 ↦ 107 despite the true version being 3. -/
def payDOut : List Nat := [0, 0, 0, 0] ++ [0, 0, 0, 1] ++ tagIloc ++
  [0, 0, 0, 0, 0, 0, 0, 38] ++ [3, 0, 0, 0] ++ [68, 0] ++ [0, 1] ++
  [0, 1, 0, 0, 0, 1, 0, 0, 0, 107, 0, 0, 0, 10]

/-- A meta payload holding the spec's synthetic version-0 `iloc` table:
two items, one extent each, 4-byte offset and length fields, offsets
`{100, 500}`. -/
def payE : List Nat := [0, 0, 0, 0] ++ [0, 0, 0, 44] ++ tagIloc ++
  [0, 0, 0, 0] ++ [68, 0] ++ [0, 2] ++
  [0, 1, 0, 0, 0, 1, 0, 0, 0, 100, 0, 0, 0, 10] ++
  [0, 2, 0, 0, 0, 1, 0, 0, 1, 244, 0, 0, 0, 20]

/-- Strict UTF-8 decoding with fuel (one byte consumed per step, so fuel
`length + 1` always suffices): rejects continuation-start bytes, overlong
forms, surrogates and values above `U+10FFFF`, exactly like Python's
strict `bytes.decode("utf-8")`. -/
def utf8DecodeFuel : Nat → List Nat → Option (List Nat)
  | _, [] => some []
  | 0, _ :: _ => none
  | Nat.succ n, b :: bs =>
    if b < 128 then (utf8DecodeFuel n bs).map (b :: ·)
    else if b < 194 then none
    else if b < 224 then
      match bs with
      | b1 :: rest =>
        if 128 ≤ b1 ∧ b1 < 192 then
          (utf8DecodeFuel n rest).map (((b - 192) * 64 + (b1 - 128)) :: ·)
        else none
      | [] => none
    else if b < 240 then
      match bs with
      | b1 :: b2 :: rest =>
        if (if b = 224 then 160 else 128) ≤ b1 ∧
            b1 ≤ (if b = 237 then 159 else 191) ∧
            128 ≤ b2 ∧ b2 < 192 then
          (utf8DecodeFuel n rest).map
            (((b - 224) * 4096 + (b1 - 128) * 64 + (b2 - 128)) :: ·)
        else none
      | _ => none
    else if b < 245 then
      match bs with
      | b1 :: b2 :: b3 :: rest =>
        if (if b = 240 then 144 else 128) ≤ b1 ∧
            b1 ≤ (if b = 244 then 143 else 191) ∧
            128 ≤ b2 ∧ b2 < 192 ∧ 128 ≤ b3 ∧ b3 < 192 then
          (utf8DecodeFuel n rest).map
            (((b - 240) * 262144 + (b1 - 128) * 4096 +
              (b2 - 128) * 64 + (b3 - 128)) :: ·)
        else none
      | _ => none
    else none

/-- Python `bytes.decode("utf-8")` (strict): the code points, or `none`
(a `UnicodeDecodeError`). -/
def utf8Decode (l : List Nat) : Option (List Nat) :=
  utf8DecodeFuel (l.length + 1) l

/-- Helper for Python `bytes.find(b"\x00")`: index of the first zero
byte, counting from `k`. -/
def findNulAux : List Nat → Nat → Option Nat
  | [], _ => none
  | b :: bs, k => if b = 0 then some k else findNulAux bs (k + 1)

/-- Python `data.find(b"\x00")` (absent modelled as `none`, not `-1`). -/
def findNul (l : List Nat) : Option Nat := findNulAux l 0

/-- Python `data.find(b"\x00", start)`. -/
def findNulFrom (l : List Nat) (start : Nat) : Option Nat :=
  (findNulAux (l.drop start) 0).map (· + start)

/-- Outcome of the chunk-type dispatch in the body of the
`_extract_sd_parameters` loop for one chunk. -/
inductive ChunkStep where
  /-- A `return <decoded value>` statement is reached. -/
  | ret (v : List Nat)
  /-- An exception is raised inside the loop (only source: `decode("utf-8")`
  in the `iTXt` branch), caught by the outer `except` of the function. -/
  | abort
  /-- The `IEND` check breaks the loop: the scan ends with no value. -/
  | stop
  /-- The iteration falls through or `continue`s: scan the next chunk. -/
  | skip
deriving DecidableEq

/-- The body of the `_extract_sd_parameters` loop after the framing reads:
the `tEXt`/`zTXt`/`iTXt`/`IEND` dispatch on one chunk (type, data),
verbatim from the source. `inflate` is the `zlib.decompress` oracle
(`none` = `zlib.error`). -/
def chunkStep (inflate : List Nat → Option (List Nat)) (ty data : List Nat) :
    ChunkStep :=
  if ty = tagTEXt then
    match findNul data with
    | some s =>
      if 0 < s ∧ data.take s = kwParameters then .ret (data.drop (s + 1))
      else .skip
    | none => .skip
  else if ty = tagZTXt then
    match findNul data with
    | some s =>
      if 0 < s ∧ data.take s = kwParameters ∧ s + 2 ≤ data.length then
        if data.getD (s + 1) 0 ≠ 0 then .skip
        else
          match inflate (data.drop (s + 2)) with
          | none => .skip
          | some out => .ret out
      else .skip
    | none => .skip
  else if ty = tagITXt then
    match findNul data with
    | some s =>
      if 0 < s ∧ data.take s = kwParameters then
        if data.length < s + 3 then .skip
        else
          match findNulFrom data (s + 3) with
          | none => .skip
          | some langEnd =>
            match findNulFrom data (langEnd + 1) with
            | none => .skip
            | some tEnd =>
              let textBytes := data.drop (tEnd + 1)
              if data.getD (s + 1) 0 = 1 then
                if data.getD (s + 2) 0 ≠ 0 then .skip
                else
                  match inflate textBytes with
                  | none => .skip
                  | some t2 =>
                    match utf8Decode t2 with
                    | none => .abort
                    | some v => .ret v
              else
                match utf8Decode textBytes with
                | none => .abort
                | some v => .ret v
      else .skip
    | none => .skip
  else if ty = tagIEND then .stop
  else .skip

/-- The chunk-scanning `while True` loop of `_extract_sd_parameters` over
the remaining stream bytes, with fuel (each iteration consumes at least
12 bytes, so fuel `length + 1` always suffices; a stability lemma makes
the fuel irrelevant).  `.error ()` models an exception reaching the outer
`except` handler. -/
def extractGo (inflate : List Nat → Option (List Nat)) :
    Nat → List Nat → Except Unit (Option (List Nat))
  | 0, _ => .ok none
  | Nat.succ n, rest =>
    if rest.length < 4 then .ok none
    else
      let length := beVal (rest.take 4)
      let chunkTy := (rest.drop 4).take 4
      let data := (rest.drop 8).take length
      if chunkTy.length ≠ 4 ∨ data.length ≠ length then .ok none
      else
        match chunkStep inflate chunkTy data with
        | .ret v => .ok (some v)
        | .abort => .error ()
        | .stop => .ok none
        | .skip => extractGo inflate n (rest.drop (12 + length))

/-- Embeds `_extract_sd_parameters` on the file bytes: checks the PNG
signature, scans the chunks, and collapses in-loop exceptions to `none`
via the outer `try/except`. -/
def extractSd (inflate : List Nat → Option (List Nat)) (file : List Nat) :
    Option (List Nat) :=
  if file.take 8 ≠ pngSig then none
  else
    match extractGo inflate (file.length + 1) (file.drop 8) with
    | .error _ => none
    | .ok r => r

/-- A zlib oracle for streams that contain no compressed chunk (its value
is never consulted on such streams). -/
def noInflate : List Nat → Option (List Nat) := fun _ => none

/-- A PNG chunk (type tag, payload, checksum bytes). -/
structure PngChunk where
  ty : List Nat
  payload : List Nat
  crc : List Nat

/-- The on-stream framing of one chunk:
`length(4, BE) | type(4) | payload | crc(4)`. -/
def encodeChunk (c : PngChunk) : List Nat :=
  beBytes 4 c.payload.length ++ c.ty ++ c.payload ++ c.crc

/-- A well-framed chunk sequence as stream bytes. -/
def chunksBytes (cs : List PngChunk) : List Nat :=
  (cs.map encodeChunk).flatten

/-- Well-formedness of a chunk for the framing lemmas: a 4-byte type tag,
a 4-byte checksum, and a payload length that fits the 32-bit length
field. -/
def chunkWf (c : PngChunk) : Prop :=
  c.ty.length = 4 ∧ c.crc.length = 4 ∧ c.payload.length < 4294967296

/-- Spec-side view of the scan over a decoded chunk list: the outcome of
the first chunk that is not skipped (`none` when every chunk is skipped
and the list runs out). -/
def firstOutcome (inflate : List Nat → Option (List Nat)) :
    List PngChunk → Option (Except Unit (Option (List Nat)))
  | [] => none
  | c :: cs =>
    match chunkStep inflate c.ty c.payload with
    | .skip => firstOutcome inflate cs
    | .ret v => some (.ok (some v))
    | .abort => some (.error ())
    | .stop => some (.ok none)

/-- "This chunk's leading NUL-terminated keyword is not `parameters`": the
shared guard of the three text branches fails. -/
def noKeywordMatch (c : PngChunk) : Prop :=
  ∀ s, findNul c.payload = some s → 0 < s →
    ¬ c.payload.take s = kwParameters

/-- A matching `iTXt` chunk (flag 0, method 0, empty language and
translated-keyword fields) whose value bytes `[255]` are invalid UTF-8. -/
def ceITXtBad : PngChunk :=
  ⟨tagITXt, kwParameters ++ [0, 0, 0, 0, 0, 255], [0, 0, 0, 0]⟩

/-- A matching `tEXt` chunk with value `"x"`. -/
def ceTEXtX : PngChunk := ⟨tagTEXt, kwParameters ++ [0, 120], [0, 0, 0, 0]⟩

/-- A matching `tEXt` chunk with value `"y"`. -/
def ceTEXtY : PngChunk := ⟨tagTEXt, kwParameters ++ [0, 121], [0, 0, 0, 0]⟩

/-- One item of a version-0 iloc table (spec data model): 16-bit item id,
16-bit data-reference index, base offset of width `base_offset_size`, and
extents as (extent_offset, extent_length) pairs. -/
structure IlocItemV0 where
  itemId : Nat
  dref : Nat
  base : Nat
  extents : List (Nat × Nat)

/-- Serialization of one extent at the table's field widths. -/
def encodeExtentV0 (offSz lenSz : Nat) (ex : Nat × Nat) : List Nat :=
  beBytes offSz ex.1 ++ beBytes lenSz ex.2

/-- Serialization of one version-0 item. -/
def encodeItemV0 (offSz lenSz baseSz : Nat) (it : IlocItemV0) : List Nat :=
  beBytes 2 it.itemId ++ beBytes 2 it.dref ++ beBytes baseSz it.base ++
    beBytes 2 it.extents.length ++
    (it.extents.map (encodeExtentV0 offSz lenSz)).flatten

/-- Serialization of a whole version-0 `iloc` box (32-bit size header,
tag, full-box version 0 and zero flags, the two width-nibble bytes, a
16-bit item count, then the items). -/
def encodeIlocV0 (offSz lenSz baseSz : Nat) (items : List IlocItemV0) :
    List Nat :=
  let body := [0, 0, 0, 0] ++ [offSz * 16 + lenSz, baseSz * 16] ++
    beBytes 2 items.length ++
    (items.map (encodeItemV0 offSz lenSz baseSz)).flatten
  beBytes 4 (8 + body.length) ++ tagIloc ++ body

/-- The claim's intended effect of the patch on one item: add the delta
to every extent offset, keep every other field. -/
def patchItemV0 (d : Int) (it : IlocItemV0) : IlocItemV0 :=
  ⟨it.itemId, it.dref, it.base,
    it.extents.map (fun ex => (((ex.1 : Int) + d).toNat, ex.2))⟩

/-- Well-formedness of a version-0 item at widths `(offSz, lenSz, baseSz)`
for delta `d`: every field fits its stored width and every patched offset
still fits (the amendment forced by `c2_delta_counterexample`). -/
def ilocItemWfV0 (offSz lenSz baseSz : Nat) (d : Int) (it : IlocItemV0) :
    Prop :=
  it.itemId < 65536 ∧ it.dref < 65536 ∧ it.base < 256 ^ baseSz ∧
  it.extents.length < 65536 ∧
  ∀ ex ∈ it.extents, ex.1 < 256 ^ offSz ∧ ex.2 < 256 ^ lenSz ∧
    0 ≤ (ex.1 : Int) + d ∧ (ex.1 : Int) + d < (256 : Int) ^ offSz

/-- The position sequence of the box walk on buffer `p` bounded by `e`:
`Reaches p e i o` holds when the walk starting at `i` (repeatedly adding
the parsed box size) passes through position `o`. -/
inductive Reaches (p : List Nat) (e : Nat) : Nat → Nat → Prop
  | refl (i : Nat) : Reaches p e i i
  | step (i o sz h : Nat) (ty : List Nat) :
      parseBoxHeader p i e = some (sz, h, ty) →
      Reaches p e (i + sz) o → Reaches p e i o

/-- No box with tag `t` occurs at a walk position strictly before `o`. -/
def NoTagBefore (t p : List Nat) (e i o : Nat) : Prop :=
  ∀ j sz h ty, Reaches p e i j → j < o →
    parseBoxHeader p j e = some (sz, h, ty) → ty ≠ t

-- ===================================================================
-- Theorems
-- ===================================================================

/-- C6: the EXIF UserComment Encoder emits the 8-byte ASCII charset
marker followed by the ASCII (identity) encoding when every character is
7-bit ASCII, and the 8-byte Unicode charset marker followed by the
UTF-16 (little-endian) encoding when some character is not; the function
is pure, so its output is identical across calls. -/
theorem c6_user_comment_encoder (text : List Nat)
    (hscalar : ∀ c ∈ text, c < 1114112 ∧ (c < 55296 ∨ 57344 ≤ c)) :
    ((∀ c ∈ text, c < 128) →
      toUserCommentBytes text = asciiMarker ++ text) ∧
    ((¬ ∀ c ∈ text, c < 128) →
      toUserCommentBytes text = unicodeMarker ++ utf16le text) ∧
    toUserCommentBytes text = toUserCommentBytes text := by
  refine ⟨fun hall => ?_, fun hnot => ?_, rfl⟩
  · simp only [toUserCommentBytes, if_pos]
    rw [if_pos]
    rw [List.all_eq_true]
    intro c hc
    simpa using hall c hc
  · rw [toUserCommentBytes, if_neg]
    intro hall
    rw [List.all_eq_true] at hall
    exact hnot fun c hc => by simpa using hall c hc

/-- Witness for C6 at the text `"h猫"` (code points `[104, 29483]`). -/
theorem c6_user_comment_encoder_witness :
    (∀ c ∈ ([104, 29483] : List Nat), c < 1114112 ∧ (c < 55296 ∨ 57344 ≤ c)) ∧
    toUserCommentBytes [104, 29483] = unicodeMarker ++ utf16le [104, 29483] :=
  ⟨by decide,
    (c6_user_comment_encoder [104, 29483] (by decide)).2.1 (by decide)⟩

/-- C9: the Box Header Parser returns `(total_size, header_size, tag)` with
`header_size ≤ total_size` and `offset + total_size ≤ end`, and returns
`none` exactly when fewer than 8 bytes remain before `end`, when the
extended-size marker (stored field 1) lacks its trailing 8 bytes, or when
the computed size does not fit in `[offset, end)`; a stored size of 0
resolves to `end − offset`. -/
theorem c9_box_header_contract (data : List Nat) (offset e : Nat)
    (h1 : offset ≤ e) (h2 : e ≤ data.length) :
    (∀ s hs ty, parseBoxHeader data offset e = some (s, hs, ty) →
      hs ≤ s ∧ offset + s ≤ e ∧ (hs = 8 ∨ hs = 16)) ∧
    (parseBoxHeader data offset e = none ↔
      (e < offset + 8 ∨
        (readBE data offset 4 = 1 ∧ e < offset + 16) ∨
        boxSizeOf data offset e < boxHeaderOf data offset ∨
        e < offset + boxSizeOf data offset e)) ∧
    (readBE data offset 4 = 0 → offset + 8 ≤ e →
      parseBoxHeader data offset e =
        some (e - offset, 8, sliceL data (offset + 4) (offset + 8))) := by
  refine ⟨?_, ?_, ?_⟩
  · intro s hs ty hsome
    simp only [parseBoxHeader] at hsome
    split_ifs at hsome <;>
      first
        | exact Option.noConfusion hsome
        | (simp only [Option.some.injEq, Prod.mk.injEq] at hsome
           obtain ⟨rfl, rfl, rfl⟩ := hsome
           exact ⟨by omega, by omega, by omega⟩)
  · simp only [parseBoxHeader, boxSizeOf, boxHeaderOf]
    split_ifs <;> simp_all <;> omega
  · intro h0 h8
    have hc : ¬ (e < offset + 8) := by omega
    have hd : ¬ (e - offset < 8 ∨ e < offset + (e - offset)) := by omega
    simp [parseBoxHeader, h0, hc, hd]

/-- Witness for C9 on a concrete 16-byte `ftyp` box. -/
theorem c9_box_header_contract_witness :
    8 ≤ 16 ∧ 0 + 16 ≤ 16 ∧ ((8 : Nat) = 8 ∨ (8 : Nat) = 16) :=
  (c9_box_header_contract
      [0, 0, 0, 16, 102, 116, 121, 112, 1, 2, 3, 4, 5, 6, 7, 8] 0 16
      (by decide) (by decide)).1 16 8 [102, 116, 121, 112] (by decide)

/-- C1 (failing case): on `fileB`, whose `meta` box has a 16-byte extended
size header, injection succeeds but writes `fileBOut`: the written length
equals the pre-injection length (not length + delta, the delta being 8),
and re-parsing the result finds no valid `meta` box at all (the rebuilt
4-byte header claims size 60 of 52 available bytes). -/
theorem c1_ext_header_breaks_invariant :
    injectHandlerDescription fileB libavifBytes = .ok (some fileBOut) ∧
    fileB.length = 52 ∧ fileBOut.length = 52 ∧
    findBox tagMeta fileBOut 0 fileBOut.length = none := by
  refine ⟨rfl, rfl, rfl, rfl⟩

/-- C1 (good case, for contrast): on `fileA` (32-bit headers) injection
succeeds, the written length is the old length plus the delta 8, and the
rebuilt `meta` and `hdlr` boxes re-parse with sizes matching their spans. -/
theorem c1_plain_header_case :
    (injectHandlerDescription fileA libavifBytes).map (Option.map List.length)
      = .ok (some 52) ∧ fileA.length + 8 = 52 := by
  exact ⟨rfl, rfl⟩

/-- C3 (failing case): on `fileC` the injector reaches the iloc patch, the
extent offset `0xFFFFFFFF + 8` no longer fits 4 bytes, and the
`OverflowError` raised by `int.to_bytes` escapes the injector (modelled
`.error ()`) instead of a silent no-op — though still with no partial
write. -/
theorem c3_overflow_exception_escapes :
    injectHandlerDescription fileC libavifBytes = .error () := rfl

/-- C4 (failing case): on `payD` the nested `iloc` box has a 64-bit
extended header, so its full-box version byte sits at box offset 16 and
equals 3 (unsupported); the code nevertheless reads byte 8 (part of the
extended size, = 0) as the version and patches the table instead of
returning the payload unmodified. -/
theorem c4_ext_header_version_misread :
    patchIloc payD 7 = .ok payDOut ∧ payDOut ≠ payD ∧
    payD.getD (4 + 16) 0 = 3 := by
  refine ⟨rfl, by decide, rfl⟩

/-- C2 (counterexample to "every delta"): on the spec's own synthetic
table `payE` (offsets `{100, 500}`, 4-byte fields) the delta `-200` makes
the first patched offset negative, so `int.to_bytes` raises
(`.error ()`): the patcher neither adds the delta to every offset nor
returns any payload. -/
theorem c2_delta_counterexample :
    patchIloc payE (-200) = .error () := rfl

theorem beBytes_length (w v : Nat) : (beBytes w v).length = w := by
  induction w generalizing v with
  | zero => rfl
  | succ w ih => simp [beBytes, ih]

theorem beVal_beBytes (w v : Nat) : beVal (beBytes w v) = v % 256 ^ w := by
  induction w generalizing v with
  | zero => simp [beBytes, beVal, Nat.mod_one]
  | succ w ih =>
    simp only [beBytes, beVal, List.foldl_append, List.foldl_cons, List.foldl_nil]
    have hv := ih (v / 256)
    simp only [beVal] at hv
    rw [hv, pow_succ', Nat.mod_mul]
    ring

theorem beVal_beBytes_of_lt (w v : Nat) (h : v < 256 ^ w) :
    beVal (beBytes w v) = v := by
  rw [beVal_beBytes, Nat.mod_eq_of_lt h]

theorem extractGo_stable (inflate : List Nat → Option (List Nat)) :
    ∀ n m rest, rest.length < n → rest.length < m →
      extractGo inflate n rest = extractGo inflate m rest := by
  intro n
  induction n with
  | zero => intro m rest h _; omega
  | succ n ih =>
    intro m rest hn hm
    match m with
    | 0 => omega
    | Nat.succ m =>
      simp only [extractGo]
      by_cases h4 : rest.length < 4
      · simp [h4]
      · simp only [if_neg h4]
        by_cases hchk : ¬((rest.drop 4).take 4).length = 4 ∨
            ¬((rest.drop 8).take (beVal (rest.take 4))).length = beVal (rest.take 4)
        · simp only [if_pos hchk]
        · simp only [if_neg hchk]
          push_neg at hchk
          cases chunkStep inflate ((rest.drop 4).take 4)
              ((rest.drop 8).take (beVal (rest.take 4))) with
          | ret v => rfl
          | abort => rfl
          | stop => rfl
          | skip =>
            apply ih
            · have h1 := List.length_drop (12 + beVal (rest.take 4)) rest
              have h2 : ((rest.drop 8).take (beVal (rest.take 4))).length =
                  min (beVal (rest.take 4)) (rest.length - 8) := by
                rw [List.length_take, List.length_drop]
              omega
            · have h1 := List.length_drop (12 + beVal (rest.take 4)) rest
              have h2 : ((rest.drop 8).take (beVal (rest.take 4))).length =
                  min (beVal (rest.take 4)) (rest.length - 8) := by
                rw [List.length_take, List.length_drop]
              omega

theorem encodeChunk_length (c : PngChunk) (hwf : chunkWf c) :
    (encodeChunk c).length = 12 + c.payload.length := by
  obtain ⟨h1, h2, _⟩ := hwf
  simp [encodeChunk, beBytes_length, h1, h2]
  omega

theorem extractGo_cons (inflate : List Nat → Option (List Nat))
    (c : PngChunk) (tail : List Nat) (n : Nat) (hwf : chunkWf c)
    (hn : (encodeChunk c ++ tail).length < n) :
    extractGo inflate n (encodeChunk c ++ tail) =
      match chunkStep inflate c.ty c.payload with
      | .ret v => .ok (some v)
      | .abort => .error ()
      | .stop => .ok none
      | .skip => extractGo inflate (tail.length + 1) tail := by
  obtain ⟨hty, hcrc, hfit⟩ := hwf
  have hlen : (encodeChunk c).length = 12 + c.payload.length := by
    simp [encodeChunk, beBytes_length, hty, hcrc]; omega
  match n with
  | 0 => omega
  | Nat.succ n =>
    have hrest : encodeChunk c ++ tail =
        beBytes 4 c.payload.length ++ (c.ty ++ (c.payload ++ (c.crc ++ tail))) := by
      simp [encodeChunk]
    have htake4 : (encodeChunk c ++ tail).take 4 = beBytes 4 c.payload.length := by
      rw [hrest]; exact List.take_left' (beBytes_length 4 _)
    have hval : beVal ((encodeChunk c ++ tail).take 4) = c.payload.length := by
      rw [htake4, beVal_beBytes_of_lt]; exact hfit
    have hdrop4 : (encodeChunk c ++ tail).drop 4 =
        c.ty ++ (c.payload ++ (c.crc ++ tail)) := by
      rw [hrest]; exact List.drop_left' (beBytes_length 4 _)
    have hty4 : ((encodeChunk c ++ tail).drop 4).take 4 = c.ty := by
      rw [hdrop4]; exact List.take_left' hty
    have hdrop8 : (encodeChunk c ++ tail).drop 8 = c.payload ++ (c.crc ++ tail) := by
      have : (8 : Nat) = 4 + 4 := rfl
      rw [this, ← List.drop_drop, hdrop4]
      exact List.drop_left' hty
    have hdata : ((encodeChunk c ++ tail).drop 8).take c.payload.length =
        c.payload := by
      rw [hdrop8]; exact List.take_left' rfl
    have hdrop12 : (encodeChunk c ++ tail).drop (12 + c.payload.length) = tail := by
      rw [show 12 + c.payload.length = (encodeChunk c).length from by omega]
      exact List.drop_left' rfl
    simp only [extractGo]
    rw [if_neg (by simp [hlen]; omega)]
    rw [hval, hty4, hdata]
    rw [if_neg (by simp [hty])]
    cases hcs : chunkStep inflate c.ty c.payload with
    | ret v => rfl
    | abort => rfl
    | stop => rfl
    | skip =>
      simp only []
      rw [hdrop12]
      exact extractGo_stable inflate n (tail.length + 1) tail (by simp [hlen] at hn; omega) (by omega)

theorem extractGo_chunks (inflate : List Nat → Option (List Nat))
    (cs : List PngChunk) (tail : List Nat) (n : Nat)
    (hwf : ∀ c ∈ cs, chunkWf c)
    (hn : (chunksBytes cs ++ tail).length < n) :
    extractGo inflate n (chunksBytes cs ++ tail) =
      match firstOutcome inflate cs with
      | some r => r
      | none => extractGo inflate (tail.length + 1) tail := by
  induction cs generalizing n with
  | nil =>
    simp only [chunksBytes, List.map_nil, List.flatten_nil, List.nil_append,
      firstOutcome]
    exact extractGo_stable inflate n (tail.length + 1) tail
      (by simpa [chunksBytes] using hn) (by omega)
  | cons c cs ih =>
    have hcw : chunkWf c := hwf c (by simp)
    have hstep : chunksBytes (c :: cs) ++ tail =
        encodeChunk c ++ (chunksBytes cs ++ tail) := by
      simp [chunksBytes]
    rw [hstep]
    rw [extractGo_cons inflate c (chunksBytes cs ++ tail) n hcw (by rw [← hstep]; exact hn)]
    simp only [firstOutcome]
    cases chunkStep inflate c.ty c.payload with
    | ret v => rfl
    | abort => rfl
    | stop => rfl
    | skip =>
      simp only []
      exact ih ((chunksBytes cs ++ tail).length + 1)
        (fun x hx => hwf x (List.mem_cons_of_mem c hx)) (by omega)

theorem extractGo_trunc (inflate : List Nat → Option (List Nat))
    (tail : List Nat) (n : Nat)
    (h : tail.length < 4 ∨ tail.length < 8 + beVal (tail.take 4)) :
    extractGo inflate (n + 1) tail = .ok none := by
  simp only [extractGo]
  by_cases h4 : tail.length < 4
  · rw [if_pos h4]
  · rw [if_neg h4]
    rw [if_pos]
    have hL : tail.length < 8 + beVal (tail.take 4) := by omega
    by_cases h8 : tail.length < 8
    · left
      rw [List.length_take, List.length_drop]
      omega
    · right
      rw [List.length_take, List.length_drop]
      omega

theorem extractSd_framed (inflate : List Nat → Option (List Nat))
    (cs : List PngChunk) (tail : List Nat)
    (hwf : ∀ c ∈ cs, chunkWf c) :
    extractSd inflate (pngSig ++ (chunksBytes cs ++ tail)) =
      match firstOutcome inflate cs with
      | some (.ok r) => r
      | some (.error _) => none
      | none =>
        match extractGo inflate (tail.length + 1) tail with
        | .error _ => none
        | .ok r => r := by
  have hsig : (pngSig ++ (chunksBytes cs ++ tail)).take 8 = pngSig :=
    List.take_left' rfl
  have hdrop : (pngSig ++ (chunksBytes cs ++ tail)).drop 8 = chunksBytes cs ++ tail :=
    List.drop_left' rfl
  simp only [extractSd, hsig, hdrop]
  rw [if_neg (show ¬ pngSig ≠ pngSig by simp)]
  rw [extractGo_chunks inflate cs tail _ hwf
    (by simp only [List.length_append]; omega)]
  cases firstOutcome inflate cs with
  | none => rfl
  | some r => cases r <;> rfl

theorem chunkStep_of_noKeywordMatch (inflate : List Nat → Option (List Nat))
    (c : PngChunk) (h : noKeywordMatch c) :
    chunkStep inflate c.ty c.payload = .skip ∨
    chunkStep inflate c.ty c.payload = .stop := by
  unfold chunkStep
  split_ifs with h1 h2 h3 h4
  · cases hfn : findNul c.payload with
    | none => left; rfl
    | some s =>
      left
      simp only [hfn]
      rw [if_neg]
      rintro ⟨hs, ht⟩
      exact h s hfn hs ht
  · cases hfn : findNul c.payload with
    | none => left; rfl
    | some s =>
      left
      simp only [hfn]
      rw [if_neg]
      rintro ⟨hs, ht, _⟩
      exact h s hfn hs ht
  · cases hfn : findNul c.payload with
    | none => left; rfl
    | some s =>
      left
      simp only [hfn]
      rw [if_neg]
      rintro ⟨hs, ht⟩
      exact h s hfn hs ht
  · right; rfl
  · left; rfl

theorem firstOutcome_of_noMatch (inflate : List Nat → Option (List Nat))
    (cs : List PngChunk) (h : ∀ c ∈ cs, noKeywordMatch c) :
    firstOutcome inflate cs = none ∨ firstOutcome inflate cs = some (.ok none) := by
  induction cs with
  | nil => left; rfl
  | cons c cs ih =>
    rcases chunkStep_of_noKeywordMatch inflate c (h c (by simp)) with hs | hs
    · simp only [firstOutcome, hs]
      exact ih fun x hx => h x (List.mem_cons_of_mem c hx)
    · right
      simp only [firstOutcome, hs]

theorem firstOutcome_append_ret (inflate : List Nat → Option (List Nat))
    (pre : List PngChunk) (c : PngChunk) (post : List PngChunk) (v : List Nat)
    (hpre : ∀ x ∈ pre, chunkStep inflate x.ty x.payload = .skip)
    (hc : chunkStep inflate c.ty c.payload = .ret v) :
    firstOutcome inflate (pre ++ c :: post) = some (.ok (some v)) := by
  induction pre with
  | nil => simp only [List.nil_append, firstOutcome, hc]
  | cons p pre ih =>
    have hp : chunkStep inflate p.ty p.payload = .skip := hpre p (by simp)
    rw [List.cons_append]
    simp only [firstOutcome, hp]
    exact ih fun x hx => hpre x (List.mem_cons_of_mem p hx)

/-- C7 (amended): on a well-framed chunk stream, if every chunk before `c`
is passed over (non-matching, skipped `zTXt`/`iTXt`, in particular no
earlier `IEND` and no earlier aborting chunk) and `c` is a matching chunk
whose value decodes successfully (its branch reaches `return`), the
extractor returns exactly `c`'s decoded value — so with several matching
decodable chunks it returns the earliest one. -/
theorem c7_first_match_amended (inflate : List Nat → Option (List Nat))
    (pre post : List PngChunk) (c : PngChunk) (tail : List Nat) (v : List Nat)
    (hwf : ∀ x ∈ pre ++ c :: post, chunkWf x)
    (hpre : ∀ x ∈ pre, chunkStep inflate x.ty x.payload = .skip)
    (hc : chunkStep inflate c.ty c.payload = .ret v) :
    extractSd inflate (pngSig ++ (chunksBytes (pre ++ c :: post) ++ tail)) =
      some v := by
  rw [extractSd_framed inflate _ tail hwf,
    firstOutcome_append_ret inflate pre c post v hpre hc]

/-- Witness for the amended C7: two matching `tEXt` chunks with values
`"x"` and `"y"`; the extractor returns `"x"`, the earlier one. -/
theorem c7_first_match_amended_witness :
    extractSd noInflate
      (pngSig ++ (chunksBytes ([] ++ ceTEXtX :: [ceTEXtY]) ++ [])) =
      some [120] := by
  apply c7_first_match_amended noInflate [] [ceTEXtY] ceTEXtX [] [120]
  · intro x hx
    simp only [List.nil_append, List.mem_cons, List.mem_singleton,
      List.not_mem_nil, or_false] at hx
    rcases hx with rfl | rfl
    · exact ⟨rfl, rfl, by norm_num [ceTEXtX, kwParameters]⟩
    · exact ⟨rfl, rfl, by norm_num [ceTEXtY, kwParameters]⟩
  · intro x hx
    simp at hx
  · rfl

/-- C7 (counterexample to the claim as stated): a stream whose first
matching chunk is an `iTXt` with invalid-UTF-8 value bytes, followed by
two matching, decodable `tEXt` chunks (values `"x"` and `"y"`); the
extraction aborts and returns `none` instead of the earliest decodable
value `"x"`. -/
theorem c7_counterexample :
    extractSd noInflate (pngSig ++ chunksBytes [ceITXtBad, ceTEXtX, ceTEXtY])
      = none ∧
    chunkStep noInflate ceTEXtX.ty ceTEXtX.payload = .ret [120] ∧
    chunkStep noInflate ceTEXtY.ty ceTEXtY.payload = .ret [121] :=
  ⟨rfl, rfl, rfl⟩

/-- C8: the Text-Parameter Extractor yields `none` on a stream lacking the
8-byte PNG signature, and on any well-framed stream whose chunks all fail
the keyword match followed by a truncated tail (short length read:
`tail.length < 4`; short type or payload read: fewer than `8 + length`
bytes).  No exception escapes: in the model the loop body's exceptions
are `.error` values and `extractSd` (the `try/except` of the source)
maps them to `none`, so `extractSd` is total. -/
theorem c8_absence_is_safe :
    (∀ (inflate : List Nat → Option (List Nat)) (file : List Nat),
      ¬ file.take 8 = pngSig → extractSd inflate file = none) ∧
    (∀ (inflate : List Nat → Option (List Nat)) (cs : List PngChunk)
      (tail : List Nat),
      (∀ c ∈ cs, chunkWf c) → (∀ c ∈ cs, noKeywordMatch c) →
      (tail.length < 4 ∨ tail.length < 8 + beVal (tail.take 4)) →
      extractSd inflate (pngSig ++ (chunksBytes cs ++ tail)) = none) := by
  constructor
  · intro inflate file hsig
    rw [extractSd, if_pos hsig]
  · intro inflate cs tail hwf hnm htr
    rw [extractSd_framed inflate cs tail hwf]
    rcases firstOutcome_of_noMatch inflate cs hnm with h | h <;> rw [h]
    rw [extractGo_trunc inflate tail tail.length htr]

/-- Witness for C8: a three-byte non-PNG stream, and a PNG stream with one
non-matching `tEXt` chunk (keyword `"foo"`) followed by a 3-byte
truncated tail. -/
theorem c8_absence_is_safe_witness :
    extractSd noInflate [1, 2, 3] = none ∧
    extractSd noInflate (pngSig ++
      (chunksBytes [⟨tagTEXt, [102, 111, 111, 0, 9], [0, 0, 0, 0]⟩] ++
        [0, 0, 5])) = none := by
  constructor
  · exact c8_absence_is_safe.1 noInflate [1, 2, 3] (by decide)
  · apply c8_absence_is_safe.2 noInflate
      [⟨tagTEXt, [102, 111, 111, 0, 9], [0, 0, 0, 0]⟩] [0, 0, 5]
    · intro c hc
      simp only [List.mem_singleton] at hc
      subst hc
      exact ⟨rfl, rfl, by norm_num⟩
    · intro c hc
      simp only [List.mem_singleton] at hc
      subst hc
      intro s hfn hs ht
      have h3 : some s = some 3 := by rw [← hfn]; rfl
      have h4 : s = 3 := Option.some.inj h3
      subst h4
      exact absurd ht (by decide)
    · left; decide

/-- C10: in the `iTXt` branch, a compression-flag byte other than 1 is
treated as uncompressed — the value bytes are decoded as UTF-8 directly
and the method byte (`method`, arbitrary here) is never checked — and an
invalid-UTF-8 value aborts the whole extraction to `none` without
consulting the later matching chunk `c2`; by contrast (second part), a
zlib failure on a matching `zTXt` chunk only skips that chunk and the
scan goes on to return `c2`'s value. -/
theorem c10_itxt_flag_and_abort (inflate : List Nat → Option (List Nat))
    (flag method : Nat) (value : List Nat) (c2 : PngChunk) (v2 : List Nat)
    (hflag : flag ≠ 1)
    (hfit : value.length + 15 < 4294967296)
    (hwf2 : chunkWf c2)
    (hc2 : chunkStep inflate c2.ty c2.payload = .ret v2) :
    (extractSd inflate (pngSig ++ (chunksBytes
        [⟨tagITXt, kwParameters ++ 0 :: flag :: method :: 0 :: 0 :: value,
          [0, 0, 0, 0]⟩, c2] ++ [])) =
      match utf8Decode value with
      | some v => some v
      | none => none) ∧
    (∀ zpay : List Nat, zpay.length + 12 < 4294967296 → inflate zpay = none →
      extractSd inflate (pngSig ++ (chunksBytes
        [⟨tagZTXt, kwParameters ++ 0 :: 0 :: zpay, [0, 0, 0, 0]⟩, c2] ++ []))
        = some v2) := by
  constructor
  · have hstep : chunkStep inflate tagITXt
        (kwParameters ++ 0 :: flag :: method :: 0 :: 0 :: value) =
        match utf8Decode value with
        | none => ChunkStep.abort
        | some v => ChunkStep.ret v := by
      simp [chunkStep, tagITXt, tagTEXt, tagZTXt, tagIEND, kwParameters,
        findNul, findNulFrom, findNulAux, hflag]
    have hwfall : ∀ x ∈ [(⟨tagITXt,
        kwParameters ++ 0 :: flag :: method :: 0 :: 0 :: value,
        [0, 0, 0, 0]⟩ : PngChunk), c2], chunkWf x := by
      intro x hx
      simp only [List.mem_cons, List.not_mem_nil, or_false] at hx
      rcases hx with rfl | rfl
      · refine ⟨rfl, rfl, ?_⟩
        simp [kwParameters]
        omega
      · exact hwf2
    rw [extractSd_framed inflate _ [] hwfall]
    cases hdec : utf8Decode value with
    | none =>
      have h1 : firstOutcome inflate [(⟨tagITXt,
          kwParameters ++ 0 :: flag :: method :: 0 :: 0 :: value,
          [0, 0, 0, 0]⟩ : PngChunk), c2] = some (.error ()) := by
        simp only [firstOutcome, hstep, hdec]
      rw [h1]
    | some v =>
      have h1 : firstOutcome inflate [(⟨tagITXt,
          kwParameters ++ 0 :: flag :: method :: 0 :: 0 :: value,
          [0, 0, 0, 0]⟩ : PngChunk), c2] = some (.ok (some v)) := by
        simp only [firstOutcome, hstep, hdec]
      rw [h1]
  · intro zpay hzfit hz
    have hzstep : chunkStep inflate tagZTXt (kwParameters ++ 0 :: 0 :: zpay) =
        ChunkStep.skip := by
      simp [chunkStep, tagITXt, tagTEXt, tagZTXt, tagIEND, kwParameters,
        findNul, findNulAux, hz]
    have hwfall : ∀ x ∈ [(⟨tagZTXt, kwParameters ++ 0 :: 0 :: zpay,
        [0, 0, 0, 0]⟩ : PngChunk), c2], chunkWf x := by
      intro x hx
      simp only [List.mem_cons, List.not_mem_nil, or_false] at hx
      rcases hx with rfl | rfl
      · refine ⟨rfl, rfl, ?_⟩
        simp [kwParameters]
        omega
      · exact hwf2
    rw [extractSd_framed inflate _ [] hwfall]
    have h1 : firstOutcome inflate [(⟨tagZTXt,
        kwParameters ++ 0 :: 0 :: zpay, [0, 0, 0, 0]⟩ : PngChunk), c2] =
        some (.ok (some v2)) := by
      simp only [firstOutcome, hzstep, hc2]
    rw [h1]

/-- Witness for C10: flag 0 with (unchecked) method byte 77 and invalid
UTF-8 value `[255]` aborts the whole extraction although a matching
`tEXt` chunk follows; a failing zlib `zTXt` chunk only skips, and the
following `tEXt` value `"x"` is returned. -/
theorem c10_itxt_flag_and_abort_witness :
    (extractSd noInflate (pngSig ++ (chunksBytes
        [⟨tagITXt, kwParameters ++ 0 :: 0 :: 77 :: 0 :: 0 :: [255],
          [0, 0, 0, 0]⟩, ceTEXtX] ++ [])) = none) ∧
    (extractSd noInflate (pngSig ++ (chunksBytes
        [⟨tagZTXt, kwParameters ++ 0 :: 0 :: [9], [0, 0, 0, 0]⟩, ceTEXtX] ++
        [])) = some [120]) := by
  have h := c10_itxt_flag_and_abort noInflate 0 77 [255] ceTEXtX [120]
    (by decide) (by decide) ⟨rfl, rfl, by decide⟩ rfl
  exact ⟨by rw [h.1]; rfl, h.2 [9] (by decide) rfl⟩

theorem readBE_app (pre rest : List Nat) (w x : Nat) (hx : x < 256 ^ w) :
    readBE (pre ++ (beBytes w x ++ rest)) pre.length w = x := by
  unfold readBE sliceL
  rw [List.drop_left' rfl, Nat.add_sub_cancel_left,
    List.take_left' (beBytes_length w x), beVal_beBytes_of_lt w x hx]

theorem overwrite_app (pre l r : List Nat) :
    overwrite (pre ++ l) pre.length r = pre ++ (r ++ l.drop r.length) := by
  unfold overwrite
  rw [List.take_left' rfl, List.drop_append, List.append_assoc]

theorem getD_app (pre l : List Nat) (k : Nat) :
    (pre ++ l).getD (pre.length + k) 0 = l.getD k 0 := by
  simp only [List.getD_eq_getElem?_getD]
  rw [List.getElem?_append_right (Nat.le_add_right _ _), Nat.add_sub_cancel_left]

theorem encodeExtentV0_length (offSz lenSz : Nat) (ex : Nat × Nat) :
    (encodeExtentV0 offSz lenSz ex).length = offSz + lenSz := by
  simp [encodeExtentV0, beBytes_length]

theorem patchExtents_encode (offSz lenSz : Nat) (useIdx : Bool)
    (hoff : 0 < offSz) (d : Int)
    (exts : List (Nat × Nat)) (pre post : List Nat)
    (hex : ∀ ex ∈ exts, ex.1 < 256 ^ offSz ∧ ex.2 < 256 ^ lenSz ∧
      0 ≤ (ex.1 : Int) + d ∧ (ex.1 : Int) + d < (256 : Int) ^ offSz) :
    patchExtents offSz lenSz 0 useIdx d exts.length
        (pre ++ ((exts.map (encodeExtentV0 offSz lenSz)).flatten ++ post))
        pre.length =
      .ok (some
        (pre ++
          (((exts.map (fun ex => (((ex.1 : Int) + d).toNat, ex.2))).map
              (encodeExtentV0 offSz lenSz)).flatten ++ post),
        pre.length + exts.length * (offSz + lenSz))) := by
  induction exts generalizing pre with
  | nil => simp [patchExtents]
  | cons ex exts ih =>
    obtain ⟨hx1, hx2, hx3, hx4⟩ := hex ex (by simp)
    have hlen : (pre ++ ((List.map (encodeExtentV0 offSz lenSz) (ex :: exts)).flatten ++ post)).length
        = pre.length + (offSz + lenSz) + ((exts.map (encodeExtentV0 offSz lenSz)).flatten ++ post).length := by
      simp [encodeExtentV0_length, beBytes_length, encodeExtentV0]
      omega
    show patchExtents offSz lenSz 0 useIdx d (exts.length + 1) _ _ = _
    rw [show exts.length + 1 = Nat.succ exts.length from rfl]
    simp only [patchExtents]
    rw [if_neg (by simp)]
    have hccur : (if (useIdx = true ∧ 0 < 0) then pre.length + 0 else pre.length)
        = pre.length := by
      simp
    rw [hccur]
    rw [if_neg (by rw [hlen]; omega)]
    have harr : pre ++ ((List.map (encodeExtentV0 offSz lenSz) (ex :: exts)).flatten ++ post) =
        pre ++ (beBytes offSz ex.1 ++ (beBytes lenSz ex.2 ++ ((exts.map (encodeExtentV0 offSz lenSz)).flatten ++ post))) := by
      simp [encodeExtentV0]
    have hwp : writePatched
        (pre ++ ((List.map (encodeExtentV0 offSz lenSz) (ex :: exts)).flatten ++ post))
        pre.length offSz d =
        .ok (pre ++ (beBytes offSz ((ex.1 : Int) + d).toNat ++
          (beBytes lenSz ex.2 ++ ((exts.map (encodeExtentV0 offSz lenSz)).flatten ++ post)))) := by
      rw [harr]
      unfold writePatched
      rw [readBE_app _ _ _ _ hx1]
      rw [toBytes, if_neg (by push_neg; exact ⟨hx3, hx4⟩)]
      show Except.ok _ = _
      rw [overwrite_app, beBytes_length,
        List.drop_left' (beBytes_length offSz ex.1)]
    rw [if_pos hoff, hwp]
    simp only []
    rw [if_neg (by
      have : (pre ++ (beBytes offSz (((ex.1 : Int) + d).toNat) ++
          (beBytes lenSz ex.2 ++ ((exts.map (encodeExtentV0 offSz lenSz)).flatten ++ post)))).length =
          pre.length + (offSz + lenSz) + ((exts.map (encodeExtentV0 offSz lenSz)).flatten ++ post).length := by
        simp [beBytes_length]; omega
      rw [this]; omega)]
    have hre : pre ++ (beBytes offSz (((ex.1 : Int) + d).toNat) ++
        (beBytes lenSz ex.2 ++ ((exts.map (encodeExtentV0 offSz lenSz)).flatten ++ post))) =
        (pre ++ beBytes offSz (((ex.1 : Int) + d).toNat) ++ beBytes lenSz ex.2) ++
          ((exts.map (encodeExtentV0 offSz lenSz)).flatten ++ post) := by
      simp [List.append_assoc]
    rw [hre]
    have hcur2 : pre.length + offSz + lenSz =
        (pre ++ beBytes offSz (((ex.1 : Int) + d).toNat) ++ beBytes lenSz ex.2).length := by
      simp only [List.length_append, beBytes_length]
    rw [hcur2]
    rw [ih _ (fun x hx => hex x (List.mem_cons_of_mem ex hx))]
    simp only [Except.ok.injEq, Option.some.injEq, Prod.mk.injEq, List.map_cons,
      List.flatten_cons, List.length_append, List.length_cons, beBytes_length]
    constructor
    · simp [encodeExtentV0, List.append_assoc]
    · ring

theorem patchItemsV0_succ (offSz lenSz baseSz : Nat) (d : Int) (n : Nat)
    (il : List Nat) (cur : Nat)
    (hg1 : cur + 2 ≤ il.length) (hg2 : cur + 4 ≤ il.length)
    (hg3 : cur + 4 + baseSz ≤ il.length) (hg4 : cur + 6 + baseSz ≤ il.length) :
    patchItems 0 offSz lenSz baseSz 0 d (Nat.succ n) il cur =
      match patchExtents offSz lenSz 0 false d
          (readBE il (cur + 2 + 2 + baseSz) 2) il (cur + 2 + 2 + baseSz + 2) with
      | .error e => .error e
      | .ok none => .ok none
      | .ok (some (il2, cur5)) => patchItems 0 offSz lenSz baseSz 0 d n il2 cur5 := by
  simp only [patchItems]
  rw [show (if (0 : Nat) < 2 then 2 else 4) = 2 from rfl]
  rw [if_neg (by omega)]
  rw [if_neg (by norm_num)]
  rw [if_neg (show ¬((0 : Nat) = 1 ∨ (0 : Nat) = 2) by norm_num)]
  rw [if_neg (by omega)]
  rw [if_neg (by omega)]
  rw [if_neg (by omega)]
  rw [show (decide ((0 : Nat) = 1 ∨ (0 : Nat) = 2)) = false from rfl]

theorem sum_map_const (l : List (Nat × Nat)) (c : Nat) :
    (l.map (fun _ => c)).sum = l.length * c := by
  induction l with
  | nil => simp
  | cons x l ih => simp [ih]; ring

theorem flattenExtents_length (offSz lenSz : Nat) (exts : List (Nat × Nat)) :
    ((exts.map (encodeExtentV0 offSz lenSz)).flatten).length =
      exts.length * (offSz + lenSz) := by
  rw [List.length_join, List.map_map]
  have hc : (List.length ∘ encodeExtentV0 offSz lenSz) =
      fun _ => offSz + lenSz := by
    funext ex
    simp [Function.comp, encodeExtentV0_length]
  rw [hc, sum_map_const]

theorem encodeItemV0_length (offSz lenSz baseSz : Nat) (it : IlocItemV0) :
    (encodeItemV0 offSz lenSz baseSz it).length =
      6 + baseSz + it.extents.length * (offSz + lenSz) := by
  simp only [encodeItemV0, List.length_append, beBytes_length,
    flattenExtents_length]
  omega

theorem patchItemV0_extents_length (d : Int) (it : IlocItemV0) :
    (patchItemV0 d it).extents.length = it.extents.length := by
  simp [patchItemV0]

theorem patchItems_encode (offSz lenSz baseSz : Nat) (hoff : 0 < offSz)
    (d : Int) (items : List IlocItemV0) (pre : List Nat)
    (hwf : ∀ it ∈ items, ilocItemWfV0 offSz lenSz baseSz d it) :
    patchItems 0 offSz lenSz baseSz 0 d items.length
        (pre ++ (items.map (encodeItemV0 offSz lenSz baseSz)).flatten)
        pre.length =
      .ok (some
        (pre ++ ((items.map (patchItemV0 d)).map
            (encodeItemV0 offSz lenSz baseSz)).flatten,
          pre.length +
            ((items.map (encodeItemV0 offSz lenSz baseSz)).flatten).length)) := by
  induction items generalizing pre with
  | nil => simp [patchItems]
  | cons it items ih =>
    obtain ⟨hw1, hw2, hw3, hw4, hw5⟩ := hwf it (by simp)
    have harr : pre ++ ((List.map (encodeItemV0 offSz lenSz baseSz)
        (it :: items)).flatten) =
        pre ++ (beBytes 2 it.itemId ++ (beBytes 2 it.dref ++
          (beBytes baseSz it.base ++ (beBytes 2 it.extents.length ++
            ((it.extents.map (encodeExtentV0 offSz lenSz)).flatten ++
              (items.map (encodeItemV0 offSz lenSz baseSz)).flatten))))) := by
      simp [encodeItemV0, List.append_assoc]
    have hlentot : (pre ++ ((List.map (encodeItemV0 offSz lenSz baseSz)
        (it :: items)).flatten)).length =
        pre.length + (6 + baseSz + it.extents.length * (offSz + lenSz)) +
          ((items.map (encodeItemV0 offSz lenSz baseSz)).flatten).length := by
      simp only [List.length_append, List.map_cons, List.flatten_cons,
        encodeItemV0_length]
      omega
    rw [show (it :: items).length = Nat.succ items.length from rfl]
    rw [patchItemsV0_succ offSz lenSz baseSz d items.length _ pre.length
      (by omega) (by omega) (by omega) (by omega)]
    have hpre4 : (pre ++ beBytes 2 it.itemId ++ beBytes 2 it.dref ++
        beBytes baseSz it.base).length = pre.length + 2 + 2 + baseSz := by
      simp [beBytes_length]
      omega
    have hbuf : pre ++ ((List.map (encodeItemV0 offSz lenSz baseSz)
        (it :: items)).flatten) =
        (pre ++ beBytes 2 it.itemId ++ beBytes 2 it.dref ++
          beBytes baseSz it.base) ++ (beBytes 2 it.extents.length ++
            ((it.extents.map (encodeExtentV0 offSz lenSz)).flatten ++
              (items.map (encodeItemV0 offSz lenSz baseSz)).flatten)) := by
      rw [harr]
      simp [List.append_assoc]
    have hcount : readBE (pre ++ ((List.map (encodeItemV0 offSz lenSz baseSz)
        (it :: items)).flatten)) (pre.length + 2 + 2 + baseSz) 2 =
        it.extents.length := by
      rw [hbuf, ← hpre4]
      exact readBE_app _ _ 2 it.extents.length hw4
    rw [hcount]
    have hbuf2 : pre ++ ((List.map (encodeItemV0 offSz lenSz baseSz)
        (it :: items)).flatten) =
        (pre ++ beBytes 2 it.itemId ++ beBytes 2 it.dref ++
          beBytes baseSz it.base ++ beBytes 2 it.extents.length) ++
          ((it.extents.map (encodeExtentV0 offSz lenSz)).flatten ++
            (items.map (encodeItemV0 offSz lenSz baseSz)).flatten) := by
      rw [harr]
      simp [List.append_assoc]
    have hpre5 : (pre ++ beBytes 2 it.itemId ++ beBytes 2 it.dref ++
        beBytes baseSz it.base ++ beBytes 2 it.extents.length).length =
        pre.length + 2 + 2 + baseSz + 2 := by
      simp [beBytes_length]
      omega
    have hpx := patchExtents_encode offSz lenSz false hoff d it.extents
      (pre ++ beBytes 2 it.itemId ++ beBytes 2 it.dref ++
        beBytes baseSz it.base ++ beBytes 2 it.extents.length)
      ((items.map (encodeItemV0 offSz lenSz baseSz)).flatten) hw5
    rw [hbuf2, ← hpre5, hpx]
    simp only []
    have hnewpre : (pre ++ beBytes 2 it.itemId ++ beBytes 2 it.dref ++
        beBytes baseSz it.base ++ beBytes 2 it.extents.length) ++
          ((((it.extents.map (fun ex => (((ex.1 : Int) + d).toNat, ex.2))).map
            (encodeExtentV0 offSz lenSz)).flatten) ++
            (items.map (encodeItemV0 offSz lenSz baseSz)).flatten) =
        (pre ++ encodeItemV0 offSz lenSz baseSz (patchItemV0 d it)) ++
          (items.map (encodeItemV0 offSz lenSz baseSz)).flatten := by
      simp [encodeItemV0, patchItemV0, List.append_assoc]
    rw [hnewpre]
    have hcur5 : (pre ++ beBytes 2 it.itemId ++ beBytes 2 it.dref ++
        beBytes baseSz it.base ++ beBytes 2 it.extents.length).length +
          it.extents.length * (offSz + lenSz) =
        (pre ++ encodeItemV0 offSz lenSz baseSz (patchItemV0 d it)).length := by
      simp only [List.length_append, beBytes_length, encodeItemV0_length,
        patchItemV0_extents_length]
      omega
    rw [hcur5]
    rw [ih _ (fun x hx => hwf x (List.mem_cons_of_mem it hx))]
    simp only [Except.ok.injEq, Option.some.injEq, Prod.mk.injEq,
      List.map_cons, List.flatten_cons, List.length_append,
      encodeItemV0_length, patchItemV0_extents_length]
    constructor
    · simp [List.append_assoc]
    · omega

theorem parseBoxHeader_facts (data : List Nat) (i e : Nat) (s hs : Nat)
    (ty : List Nat) (h : parseBoxHeader data i e = some (s, hs, ty)) :
    8 ≤ hs ∧ hs ≤ s ∧ i + s ≤ e ∧ (hs = 8 ∨ hs = 16) ∧
      ty = sliceL data (i + 4) (i + 8) ∧ i + 8 ≤ e := by
  simp only [parseBoxHeader] at h
  split_ifs at h <;>
    first
      | exact Option.noConfusion h
      | (simp only [Option.some.injEq, Prod.mk.injEq] at h
         obtain ⟨rfl, rfl, rfl⟩ := h
         exact ⟨by omega, by omega, by omega, by omega, rfl, by omega⟩)

theorem findBoxFuel_facts (fuel : Nat) : ∀ (t data : List Nat) (e i o s hs : Nat),
    findBoxFuel t data e fuel i = some (o, s, hs) →
    i ≤ o ∧ o + s ≤ e ∧ 8 ≤ hs ∧ hs ≤ s ∧ o + 8 ≤ e ∧ (hs = 8 ∨ hs = 16) ∧
      sliceL data (o + 4) (o + 8) = t := by
  induction fuel with
  | zero => intro t data e i o s hs h; exact Option.noConfusion h
  | succ n ih =>
    intro t data e i o s hs h
    simp only [findBoxFuel] at h
    by_cases he : e ≤ i
    · rw [if_pos he] at h
      exact Option.noConfusion h
    · rw [if_neg he] at h
      cases hp : parseBoxHeader data i e with
      | none => rw [hp] at h; exact Option.noConfusion h
      | some r =>
        obtain ⟨sz, hsz, ty⟩ := r
        rw [hp] at h
        have hfacts := parseBoxHeader_facts data i e sz hsz ty hp
        simp only [] at h
        split_ifs at h with hty
        · simp only [Option.some.injEq, Prod.mk.injEq] at h
          obtain ⟨rfl, rfl, rfl⟩ := h
          refine ⟨le_refl _, by omega, by omega, by omega, by omega, by omega, ?_⟩
          rw [← hfacts.2.2.2.2.1, hty]
        · have hrec := ih t data e (i + sz) o s hs h
          exact ⟨by omega, hrec.2.1, hrec.2.2.1, hrec.2.2.2.1,
            hrec.2.2.2.2.1, hrec.2.2.2.2.2.1, hrec.2.2.2.2.2.2⟩

theorem findBox_facts (t data : List Nat) (i e o s hs : Nat)
    (h : findBox t data i e = some (o, s, hs)) :
    i ≤ o ∧ o + s ≤ e ∧ 8 ≤ hs ∧ hs ≤ s ∧ o + 8 ≤ e ∧ (hs = 8 ∨ hs = 16) ∧
      sliceL data (o + 4) (o + 8) = t :=
  findBoxFuel_facts (e + 1 - i) t data e i o s hs h

theorem patchedItems_flatten_length (offSz lenSz baseSz : Nat) (d : Int)
    (items : List IlocItemV0) :
    (((items.map (patchItemV0 d)).map
        (encodeItemV0 offSz lenSz baseSz)).flatten).length =
      ((items.map (encodeItemV0 offSz lenSz baseSz)).flatten).length := by
  induction items with
  | nil => rfl
  | cons it items ih =>
    simp only [List.map_cons, List.flatten_cons, List.length_append, ih,
      encodeItemV0_length, patchItemV0_extents_length]

theorem getD_app_of (pre l : List Nat) (n k m : Nat) (hn : pre.length = n)
    (hm : m = n + k) : (pre ++ l).getD m 0 = l.getD k 0 := by
  subst hn
  subst hm
  exact getD_app pre l k

/-- C2 (amended): on every meta payload in which the box walk finds a
well-formed serialized version-0 iloc table, and for every delta such
that each patched offset still fits its stored width, the patcher adds
the delta to every extent offset and leaves the item count, item ids,
data-reference indexes, base offsets, extent counts, extent lengths,
every byte outside the iloc box, and the box's own size and position
unchanged (conclusion: the result is the same payload with the same-size
re-serialized table, offsets shifted, substituted in place). -/
theorem c2_iloc_patch_correct (offSz lenSz baseSz : Nat)
    (hoff : 0 < offSz) (hlen15 : lenSz ≤ 15) (hbase15 : baseSz ≤ 15)
    (d : Int) (items : List IlocItemV0) (pre post : List Nat)
    (hwf : ∀ it ∈ items, ilocItemWfV0 offSz lenSz baseSz d it)
    (hcount : items.length < 65536)
    (hbox : findBox tagIloc
        (pre ++ encodeIlocV0 offSz lenSz baseSz items ++ post) 4
        (pre ++ encodeIlocV0 offSz lenSz baseSz items ++ post).length =
      some (pre.length, (encodeIlocV0 offSz lenSz baseSz items).length, 8)) :
    patchIloc (pre ++ encodeIlocV0 offSz lenSz baseSz items ++ post) d =
      .ok (pre ++ encodeIlocV0 offSz lenSz baseSz (items.map (patchItemV0 d))
        ++ post) := by
  have hboxeq : encodeIlocV0 offSz lenSz baseSz items =
      beBytes 4 (16 + ((items.map (encodeItemV0 offSz lenSz baseSz)).flatten).length)
        ++ (tagIloc ++ ([0, 0, 0, 0] ++ ([offSz * 16 + lenSz, baseSz * 16] ++
          (beBytes 2 items.length ++
            (items.map (encodeItemV0 offSz lenSz baseSz)).flatten)))) := by
    simp [encodeIlocV0, beBytes_length]
    congr 1
    omega
  have hboxlen : (encodeIlocV0 offSz lenSz baseSz items).length =
      16 + ((items.map (encodeItemV0 offSz lenSz baseSz)).flatten).length := by
    rw [hboxeq]
    simp [beBytes_length, tagIloc]
    omega
  have hbounds := findBox_facts tagIloc
    (pre ++ encodeIlocV0 offSz lenSz baseSz items ++ post) 4
    (pre ++ encodeIlocV0 offSz lenSz baseSz items ++ post).length
    pre.length (encodeIlocV0 offSz lenSz baseSz items).length 8 hbox
  simp only [patchIloc]
  rw [if_neg (by
    simp only [List.length_append]
    omega)]
  rw [hbox]
  simp only []
  have hiloc : sliceL (pre ++ encodeIlocV0 offSz lenSz baseSz items ++ post)
      pre.length (pre.length + (encodeIlocV0 offSz lenSz baseSz items).length) =
      encodeIlocV0 offSz lenSz baseSz items := by
    rw [List.append_assoc]
    unfold sliceL
    rw [List.drop_left' rfl, Nat.add_sub_cancel_left, List.take_left' rfl]
  rw [hiloc]
  rw [if_neg (by omega)]
  have hv8 : (encodeIlocV0 offSz lenSz baseSz items).getD 8 0 = 0 := by
    rw [hboxeq, getD_app_of _ _ 4 4 8 (beBytes_length 4 _) rfl,
      getD_app_of tagIloc _ 4 0 4 rfl rfl]
    rfl
  rw [hv8]
  rw [if_neg (by norm_num)]
  have hv12 : (encodeIlocV0 offSz lenSz baseSz items).getD (8 + 4) 0 =
      offSz * 16 + lenSz := by
    rw [hboxeq, getD_app_of _ _ 4 8 (8 + 4) (beBytes_length 4 _) rfl,
      getD_app_of tagIloc _ 4 4 8 rfl rfl,
      getD_app_of [0, 0, 0, 0] _ 4 0 4 rfl rfl,
      List.getD_append _ _ _ _ (by norm_num)]
    rfl
  have hv13 : (encodeIlocV0 offSz lenSz baseSz items).getD (8 + 4 + 1) 0 =
      baseSz * 16 := by
    rw [hboxeq, getD_app_of _ _ 4 9 (8 + 4 + 1) (beBytes_length 4 _) rfl,
      getD_app_of tagIloc _ 4 5 9 rfl rfl,
      getD_app_of [0, 0, 0, 0] _ 4 1 5 rfl rfl,
      List.getD_append _ _ _ _ (by norm_num)]
    rfl
  rw [hv12, hv13]
  rw [show (offSz * 16 + lenSz) / 16 = offSz from by omega]
  rw [show (offSz * 16 + lenSz) % 16 = lenSz from by omega]
  rw [show baseSz * 16 / 16 = baseSz from by omega]
  rw [if_neg (show ¬((0 : Nat) = 1 ∨ (0 : Nat) = 2) from by norm_num)]
  rw [show (if (0 : Nat) < 2 then 2 else 4) = 2 from rfl]
  rw [if_neg (by omega)]
  have hcnt : readBE (encodeIlocV0 offSz lenSz baseSz items) (8 + 4 + 2) 2 =
      items.length := by
    have hb2 : encodeIlocV0 offSz lenSz baseSz items =
        (beBytes 4 (16 + ((items.map (encodeItemV0 offSz lenSz baseSz)).flatten).length)
          ++ tagIloc ++ [0, 0, 0, 0] ++ [offSz * 16 + lenSz, baseSz * 16]) ++
          (beBytes 2 items.length ++
            (items.map (encodeItemV0 offSz lenSz baseSz)).flatten) := by
      rw [hboxeq]
      simp [List.append_assoc]
    have hl14 : (beBytes 4 (16 + ((items.map (encodeItemV0 offSz lenSz baseSz)).flatten).length)
        ++ tagIloc ++ [0, 0, 0, 0] ++ [offSz * 16 + lenSz, baseSz * 16]).length
        = 8 + 4 + 2 := by
      simp [beBytes_length, tagIloc]
    rw [hb2, ← hl14]
    exact readBE_app _ _ 2 items.length hcount
  rw [hcnt]
  have hb16 : encodeIlocV0 offSz lenSz baseSz items =
      (beBytes 4 (16 + ((items.map (encodeItemV0 offSz lenSz baseSz)).flatten).length)
        ++ tagIloc ++ [0, 0, 0, 0] ++ [offSz * 16 + lenSz, baseSz * 16] ++
        beBytes 2 items.length) ++
        (items.map (encodeItemV0 offSz lenSz baseSz)).flatten := by
    rw [hboxeq]
    simp [List.append_assoc]
  have hl16 : (beBytes 4 (16 + ((items.map (encodeItemV0 offSz lenSz baseSz)).flatten).length)
      ++ tagIloc ++ [0, 0, 0, 0] ++ [offSz * 16 + lenSz, baseSz * 16] ++
      beBytes 2 items.length).length = 8 + 4 + 2 + 2 := by
    simp [beBytes_length, tagIloc]
  rw [hb16, show (8 + 4 + 2 + 2 : Nat) =
    (beBytes 4 (16 + ((items.map (encodeItemV0 offSz lenSz baseSz)).flatten).length)
      ++ tagIloc ++ [0, 0, 0, 0] ++ [offSz * 16 + lenSz, baseSz * 16] ++
      beBytes 2 items.length).length from hl16.symm]
  rw [patchItems_encode offSz lenSz baseSz hoff d items _ hwf]
  simp only []
  have htake : (pre ++ encodeIlocV0 offSz lenSz baseSz items ++ post).take
      pre.length = pre := by
    rw [List.append_assoc]
    exact List.take_left' rfl
  have hdrop : (pre ++ encodeIlocV0 offSz lenSz baseSz items ++ post).drop
      (pre.length + (encodeIlocV0 offSz lenSz baseSz items).length) = post := by
    rw [List.append_assoc, List.drop_append, List.drop_left' rfl]
  rw [← hb16, htake, hdrop]
  have hfinal : (beBytes 4 (16 + ((items.map (encodeItemV0 offSz lenSz baseSz)).flatten).length)
      ++ tagIloc ++ [0, 0, 0, 0] ++ [offSz * 16 + lenSz, baseSz * 16] ++
      beBytes 2 items.length) ++
      ((items.map (patchItemV0 d)).map (encodeItemV0 offSz lenSz baseSz)).flatten =
      encodeIlocV0 offSz lenSz baseSz (items.map (patchItemV0 d)) := by
    have hbodyP : ([0, 0, 0, 0] ++ [offSz * 16 + lenSz, baseSz * 16] ++
        beBytes 2 (items.map (patchItemV0 d)).length ++
        ((items.map (patchItemV0 d)).map
          (encodeItemV0 offSz lenSz baseSz)).flatten).length =
        8 + ((items.map (encodeItemV0 offSz lenSz baseSz)).flatten).length := by
      simp only [List.length_append, List.length_cons, List.length_nil,
        beBytes_length, patchedItems_flatten_length]
    simp only [encodeIlocV0]
    rw [hbodyP]
    rw [show (8 : Nat) +
      (8 + ((items.map (encodeItemV0 offSz lenSz baseSz)).flatten).length) =
      16 + ((items.map (encodeItemV0 offSz lenSz baseSz)).flatten).length
      from by omega]
    rw [List.length_map]
    simp [List.append_assoc]
  rw [hfinal]

/-- Witness for the amended C2: the spec's synthetic version-0 table
(two items, one extent each, offsets `{100, 500}` in 4-byte fields)
patched with delta 7 re-serializes with offsets `{107, 507}`
(`0x6B = 107`, `0x1FB = 507`) and every other byte unchanged. -/
theorem c2_iloc_patch_correct_witness :
    patchIloc payE 7 =
      .ok ([0, 0, 0, 0] ++ encodeIlocV0 4 4 0
        (([⟨1, 0, 0, [(100, 10)]⟩, ⟨2, 0, 0, [(500, 20)]⟩] :
          List IlocItemV0).map (patchItemV0 7)) ++ []) ∧
    [0, 0, 0, 0] ++ encodeIlocV0 4 4 0
      ([⟨1, 0, 0, [(100, 10)]⟩, ⟨2, 0, 0, [(500, 20)]⟩] : List IlocItemV0)
      ++ [] = payE ∧
    ([⟨1, 0, 0, [(100, 10)]⟩, ⟨2, 0, 0, [(500, 20)]⟩] :
      List IlocItemV0).map (patchItemV0 7) =
      [⟨1, 0, 0, [(107, 10)]⟩, ⟨2, 0, 0, [(507, 20)]⟩] := by
  refine ⟨?_, rfl, rfl⟩
  have h := c2_iloc_patch_correct 4 4 0 (by decide) (by decide) (by decide) 7
    [⟨1, 0, 0, [(100, 10)]⟩, ⟨2, 0, 0, [(500, 20)]⟩] [0, 0, 0, 0] []
    (by intro it hit
        simp only [List.mem_cons, List.not_mem_nil, or_false] at hit
        rcases hit with rfl | rfl <;>
          exact ⟨by decide, by decide, by decide, by decide, by decide⟩)
    (by decide) (by decide)
  exact h

theorem reaches_le (p : List Nat) (e i o : Nat) (h : Reaches p e i o) :
    i ≤ o := by
  induction h with
  | refl => exact le_refl _
  | step i o sz hd ty hp _ ih => omega

theorem reaches_linear (p : List Nat) (e : Nat) :
    ∀ i a b, Reaches p e i a → Reaches p e i b → a ≤ b → Reaches p e a b := by
  intro i a b ha
  induction ha generalizing b with
  | refl i => exact fun hb _ => hb
  | step i o sz hd ty hp hrest ih =>
    intro hb hab
    cases hb with
    | refl =>
      have h1 := reaches_le p e (i + sz) o hrest
      have h8 := (parseBoxHeader_facts p i e sz hd ty hp).1
      have hd8 := (parseBoxHeader_facts p i e sz hd ty hp).2.1
      omega
    | step i b sz2 hd2 ty2 hp2 hrest2 =>
      rw [hp] at hp2
      have h3 := Option.some.inj hp2
      simp only [Prod.mk.injEq] at h3
      obtain ⟨h4, h5, h6⟩ := h3
      subst h4
      exact ih _ hrest2 hab

theorem parse_size0 (p : List Nat) (j e sz h : Nat) (ty : List Nat)
    (hp : parseBoxHeader p j e = some (sz, h, ty))
    (h0 : readBE p j 4 = 0) : j + sz = e := by
  have hfacts := parseBoxHeader_facts p j e sz h ty hp
  simp only [parseBoxHeader, h0] at hp
  rw [if_neg (show ¬ e < j + 8 by omega)] at hp
  norm_num at hp
  obtain ⟨⟨h1, h2⟩, h3, h4, -⟩ := hp
  omega

theorem sliceL_getq (l : List Nat) (a b m : Nat) :
    (sliceL l a b)[m]? = if m < b - a then l[a + m]? else none := by
  simp only [sliceL]
  by_cases hm : m < b - a
  · rw [if_pos hm, List.getElem?_take_of_lt hm, List.getElem?_drop]
  · rw [if_neg hm, List.getElem?_eq_none_iff.mpr]
    simp only [List.length_take, List.length_drop]
    omega

theorem sliceL_length (l : List Nat) (a b : Nat) (h : b ≤ l.length) :
    (sliceL l a b).length = b - a := by
  simp only [sliceL, List.length_take, List.length_drop]
  omega

theorem sliceL_congr (p q : List Nat) (a b : Nat)
    (h : ∀ m, m < b - a → q[a + m]? = p[a + m]?) :
    sliceL q a b = sliceL p a b := by
  apply List.ext_getElem?
  intro m
  rw [sliceL_getq, sliceL_getq]
  by_cases hm : m < b - a
  · rw [if_pos hm, if_pos hm, h m hm]
  · rw [if_neg hm, if_neg hm]

theorem readBE_congr (p q : List Nat) (j n : Nat)
    (h : ∀ m, m < n → q[j + m]? = p[j + m]?) :
    readBE q j n = readBE p j n := by
  unfold readBE
  rw [sliceL_congr p q j (j + n) (by intro m hm; exact h m (by omega))]

theorem getq_app3 (x y z : List Nat) (k : Nat) :
    (x ++ y ++ z)[k]? = if k < x.length then x[k]?
      else if k < x.length + y.length then y[k - x.length]?
      else z[k - x.length - y.length]? := by
  by_cases h2 : k < x.length + y.length
  · rw [List.getElem?_append_left (show k < (x ++ y).length by
      simp only [List.length_append]; omega)]
    by_cases h1 : k < x.length
    · rw [if_pos h1, List.getElem?_append_left h1]
    · rw [if_neg h1, if_pos h2, List.getElem?_append_right (by omega)]
  · rw [List.getElem?_append_right (show (x ++ y).length ≤ k by
      simp only [List.length_append]; omega)]
    rw [if_neg (by omega), if_neg (by omega)]
    have h3 : k - (x ++ y).length = k - x.length - y.length := by
      simp only [List.length_append]; omega
    rw [h3]

theorem parse_plain_intro (q : List Nat) (j f s : Nat)
    (hr : readBE q j 4 = s) (h1 : s ≠ 1) (h0 : s ≠ 0) (h8 : 8 ≤ s)
    (hf : j + s ≤ f) :
    parseBoxHeader q j f = some (s, 8, sliceL q (j + 4) (j + 8)) := by
  simp only [parseBoxHeader, hr]
  rw [if_neg (show ¬ f < j + 8 by omega), if_neg h1]
  simp only [if_neg h0]
  rw [if_neg (show ¬ (s < 8 ∨ f < j + s) by omega)]

theorem parse_ext_intro (q : List Nat) (j f s : Nat)
    (hr : readBE q j 4 = 1) (hr8 : readBE q (j + 8) 8 = s)
    (h16 : 16 ≤ s) (hf : j + s ≤ f) :
    parseBoxHeader q j f = some (s, 16, sliceL q (j + 4) (j + 8)) := by
  simp only [parseBoxHeader, hr, hr8]
  rw [if_neg (show ¬ f < j + 8 by omega), if_pos trivial,
    if_neg (show ¬ f < j + 16 by omega),
    if_neg (show ¬ (s < 16 ∨ f < j + s) by omega)]

theorem parse_none_big (q : List Nat) (j f s : Nat)
    (hr : readBE q j 4 = s) (h1 : s ≠ 1) (h0 : s ≠ 0)
    (hf : f < j + s) :
    parseBoxHeader q j f = none := by
  simp only [parseBoxHeader, hr]
  by_cases h8 : f < j + 8
  · rw [if_pos h8]
  · rw [if_neg h8, if_neg h1]
    simp only [if_neg h0]
    rw [if_pos (Or.inr hf)]

theorem parse_plain_elim (p : List Nat) (j e sz h : Nat) (ty : List Nat)
    (hp : parseBoxHeader p j e = some (sz, h, ty))
    (h1 : readBE p j 4 ≠ 1) (h0 : readBE p j 4 ≠ 0) :
    sz = readBE p j 4 ∧ h = 8 := by
  simp only [parseBoxHeader] at hp
  by_cases hne : e < j + 8
  · rw [if_pos hne] at hp; exact Option.noConfusion hp
  rw [if_neg hne, if_neg h1] at hp
  simp only [if_neg h0] at hp
  by_cases hg : readBE p j 4 < 8 ∨ e < j + readBE p j 4
  · rw [if_pos hg] at hp; exact Option.noConfusion hp
  · rw [if_neg hg] at hp
    have h3 := Option.some.inj hp
    simp only [Prod.mk.injEq] at h3
    exact ⟨h3.1.symm, h3.2.1.symm⟩

theorem parse_ext_elim (p : List Nat) (j e sz h : Nat) (ty : List Nat)
    (hp : parseBoxHeader p j e = some (sz, h, ty))
    (h1 : readBE p j 4 = 1) :
    sz = readBE p (j + 8) 8 ∧ h = 16 ∧ 16 ≤ sz := by
  simp only [parseBoxHeader] at hp
  by_cases hne : e < j + 8
  · rw [if_pos hne] at hp; exact Option.noConfusion hp
  rw [if_neg hne, if_pos h1] at hp
  by_cases h16 : e < j + 16
  · rw [if_pos h16] at hp; exact Option.noConfusion hp
  rw [if_neg h16] at hp
  by_cases hg : readBE p (j + 8) 8 < 16 ∨ e < j + readBE p (j + 8) 8
  · rw [if_pos hg] at hp; exact Option.noConfusion hp
  · rw [if_neg hg] at hp
    have h3 := Option.some.inj hp
    simp only [Prod.mk.injEq] at h3
    exact ⟨h3.1.symm, h3.2.1.symm, by omega⟩

theorem parse_transfer (p q : List Nat) (j e f sz h : Nat) (ty : List Nat)
    (hp : parseBoxHeader p j e = some (sz, h, ty))
    (hnz : readBE p j 4 ≠ 0)
    (hagree : ∀ k, k < h → q[j + k]? = p[j + k]?)
    (hf : j + sz ≤ f) :
    parseBoxHeader q j f = some (sz, h, ty) := by
  have hfacts := parseBoxHeader_facts p j e sz h ty hp
  have hty : sliceL q (j + 4) (j + 8) = ty := by
    rw [hfacts.2.2.2.2.1]
    apply sliceL_congr
    intro m hm
    have hx := hagree (4 + m) (by omega)
    rw [show j + 4 + m = j + (4 + m) by omega]
    exact hx
  by_cases h1 : readBE p j 4 = 1
  · obtain ⟨hsz, hh, h16⟩ := parse_ext_elim p j e sz h ty hp h1
    subst hh
    have hq4 : readBE q j 4 = 1 := by
      rw [readBE_congr p q j 4 (fun m hm => hagree m (by omega))]; exact h1
    have hq8 : readBE q (j + 8) 8 = readBE p (j + 8) 8 := by
      apply readBE_congr
      intro m hm
      have hx := hagree (8 + m) (by omega)
      rw [show j + 8 + m = j + (8 + m) by omega]
      exact hx
    rw [← hty]
    exact parse_ext_intro q j f sz hq4 (hq8.trans hsz.symm) h16 hf
  · obtain ⟨hsz, hh⟩ := parse_plain_elim p j e sz h ty hp h1 hnz
    subst hh
    have hq4 : readBE q j 4 = readBE p j 4 :=
      readBE_congr p q j 4 (fun m hm => hagree m (by omega))
    rw [← hty]
    exact parse_plain_intro q j f sz (hq4.trans hsz.symm)
      (by rw [hsz]; exact h1) (by rw [hsz]; exact hnz)
      (by have := hfacts.1; have := hfacts.2.1; omega) hf

theorem reaches_transfer (t p q : List Nat) (e f A B : Nat) :
    ∀ i o, Reaches p e i o →
    NoTagBefore t p e i o → o < e → o ≤ f →
    (B ≤ A ∨ B ≤ i ∨ ∃ c S hsc u, Reaches p e i c ∧
      parseBoxHeader p c e = some (S, hsc, u) ∧ c + hsc + 4 ≤ A ∧ B ≤ c + S) →
    (∀ k, k < o → (k < A ∨ B ≤ k) → q[k]? = p[k]?) →
    Reaches q f i o ∧ NoTagBefore t q f i o := by
  intro i o hR
  induction hR with
  | refl i =>
    intro _ _ _ _ _
    refine ⟨Reaches.refl i, ?_⟩
    intro j sz h ty hRj hj _
    exact absurd (reaches_le q f i j hRj) (by omega)
  | step i o sz hd ty hp hrest ih =>
    intro hNT ho hof hAB hagree
    have hfacts := parseBoxHeader_facts p i e sz hd ty hp
    have hsz8 : 8 ≤ sz := le_trans hfacts.1 hfacts.2.1
    have hhd : hd ≤ sz := hfacts.2.1
    have hio : i + sz ≤ o := reaches_le p e (i + sz) o hrest
    have hnz : readBE p i 4 ≠ 0 := by
      intro h0
      have := parse_size0 p i e sz hd ty hp h0
      omega
    have hside : ∀ k, k < i + hd → i ≤ k → (k < A ∨ B ≤ k) := by
      intro k hk hik
      rcases hAB with hBA | hBi | ⟨c, S, hsc, u, hRc, hpc, hcA, hcB⟩
      · by_cases hkA : k < A
        · exact Or.inl hkA
        · exact Or.inr (by omega)
      · exact Or.inr (by omega)
      · have hic : i ≤ c := reaches_le p e i c hRc
        rcases Nat.eq_or_lt_of_le hic with heq | hlt
        · subst heq
          rw [hp] at hpc
          have h3 := Option.some.inj hpc
          simp only [Prod.mk.injEq] at h3
          obtain ⟨h4, h5, h6⟩ := h3
          exact Or.inl (by omega)
        · cases hRc with
          | refl => omega
          | step i c szx hdx tyx hpx hrestx =>
            rw [hp] at hpx
            have h3 := Option.some.inj hpx
            simp only [Prod.mk.injEq] at h3
            obtain ⟨h4, h5, h6⟩ := h3
            subst h4
            have hcx : i + sz ≤ c := reaches_le p e (i + sz) c hrestx
            exact Or.inl (by omega)
    have hq : parseBoxHeader q i f = some (sz, hd, ty) := by
      apply parse_transfer p q i e f sz hd ty hp hnz ?_ (by omega)
      intro k hk
      exact hagree (i + k) (by omega) (hside (i + k) (by omega) (by omega))
    have hAB2 : B ≤ A ∨ B ≤ i + sz ∨ ∃ c S hsc u, Reaches p e (i + sz) c ∧
        parseBoxHeader p c e = some (S, hsc, u) ∧ c + hsc + 4 ≤ A ∧ B ≤ c + S := by
      rcases hAB with hBA | hBi | ⟨c, S, hsc, u, hRc, hpc, hcA, hcB⟩
      · exact Or.inl hBA
      · exact Or.inr (Or.inl (by omega))
      · cases hRc with
        | refl =>
          rw [hp] at hpc
          have h3 := Option.some.inj hpc
          simp only [Prod.mk.injEq] at h3
          obtain ⟨h4, h5, h6⟩ := h3
          exact Or.inr (Or.inl (by omega))
        | step i c szx hdx tyx hpx hrestx =>
          rw [hp] at hpx
          have h3 := Option.some.inj hpx
          simp only [Prod.mk.injEq] at h3
          obtain ⟨h4, h5, h6⟩ := h3
          subst h4
          exact Or.inr (Or.inr ⟨c, S, hsc, u, hrestx, hpc, hcA, hcB⟩)
    have hNT2 : NoTagBefore t p e (i + sz) o := by
      intro j szj hj tyj hRj hjo hpj
      exact hNT j szj hj tyj (Reaches.step i j sz hd ty hp hRj) hjo hpj
    have hcon := ih hNT2 ho hof hAB2 hagree
    refine ⟨Reaches.step i o sz hd ty hq hcon.1, ?_⟩
    intro j szj hj tyj hRj hjo hpj
    cases hRj with
    | refl =>
      rw [hq] at hpj
      have h3 := Option.some.inj hpj
      simp only [Prod.mk.injEq] at h3
      obtain ⟨h4, h5, h6⟩ := h3
      subst h6
      exact hNT i sz hd ty (Reaches.refl i) (by omega) hp
    | step i j szx hdx tyx hpx hrestx =>
      rw [hq] at hpx
      have h3 := Option.some.inj hpx
      simp only [Prod.mk.injEq] at h3
      obtain ⟨h4, h5, h6⟩ := h3
      subst h4
      exact hcon.2 j szj hj tyj hrestx hjo hpj

theorem findBoxFuel_elim (t p : List Nat) (e : Nat) :
    ∀ fuel i o S hsc, findBoxFuel t p e fuel i = some (o, S, hsc) →
    Reaches p e i o ∧ parseBoxHeader p o e = some (S, hsc, t) ∧
      NoTagBefore t p e i o := by
  intro fuel
  induction fuel with
  | zero => intro i o S hsc h; exact Option.noConfusion h
  | succ n ih =>
    intro i o S hsc h
    simp only [findBoxFuel] at h
    by_cases he : e ≤ i
    · rw [if_pos he] at h; exact Option.noConfusion h
    · rw [if_neg he] at h
      cases hp : parseBoxHeader p i e with
      | none => rw [hp] at h; exact Option.noConfusion h
      | some r =>
        obtain ⟨sz, hd, ty⟩ := r
        rw [hp] at h
        simp only [] at h
        split_ifs at h with hty
        · have h3 := Option.some.inj h
          simp only [Prod.mk.injEq] at h3
          obtain ⟨h4, h5, h6⟩ := h3
          subst h4; subst h5; subst h6
          refine ⟨Reaches.refl i, ?_, ?_⟩
          · rw [← hty]; exact hp
          · intro j szj hj tyj hRj hjo hpj
            exact absurd (reaches_le p e i j hRj) (by omega)
        · have hrec := ih (i + sz) o S hsc h
          have hfacts := parseBoxHeader_facts p i e sz hd ty hp
          refine ⟨Reaches.step i o sz hd ty hp hrec.1, hrec.2.1, ?_⟩
          intro j szj hj tyj hRj hjo hpj
          cases hRj with
          | refl =>
            rw [hp] at hpj
            have h3 := Option.some.inj hpj
            simp only [Prod.mk.injEq] at h3
            obtain ⟨h4, h5, h6⟩ := h3
            subst h6
            exact hty
          | step i j szx hdx tyx hpx hrestx =>
            rw [hp] at hpx
            have h3 := Option.some.inj hpx
            simp only [Prod.mk.injEq] at h3
            obtain ⟨h4, h5, h6⟩ := h3
            subst h4
            exact hrec.2.2 j szj hj tyj hrestx hjo hpj

theorem findBox_elim (t p : List Nat) (i e o S hsc : Nat)
    (h : findBox t p i e = some (o, S, hsc)) :
    Reaches p e i o ∧ parseBoxHeader p o e = some (S, hsc, t) ∧
      NoTagBefore t p e i o :=
  findBoxFuel_elim t p e (e + 1 - i) i o S hsc h

theorem findBoxFuel_none (t p : List Nat) (e : Nat) :
    ∀ fuel i o, Reaches p e i o → NoTagBefore t p e i o →
    parseBoxHeader p o e = none → findBoxFuel t p e fuel i = none := by
  intro fuel
  induction fuel with
  | zero => intro i o _ _ _; rfl
  | succ n ih =>
    intro i o hR hNT hpo
    simp only [findBoxFuel]
    by_cases he : e ≤ i
    · rw [if_pos he]
    · rw [if_neg he]
      cases hR with
      | refl => simp only [hpo]
      | step i o sz hd ty hp hrest =>
        have hfacts := parseBoxHeader_facts p i e sz hd ty hp
        have hle := reaches_le p e (i + sz) o hrest
        have hsz8 : 8 ≤ sz := le_trans hfacts.1 hfacts.2.1
        have hty : ty ≠ t := hNT i sz hd ty (Reaches.refl i) (by omega) hp
        rw [hp]
        simp only []
        rw [if_neg hty]
        exact ih (i + sz) o hrest
          (fun j szj hj tyj hRj hjo hpj =>
            hNT j szj hj tyj (Reaches.step i j sz hd ty hp hRj) hjo hpj) hpo

theorem findBox_intro_none (t p : List Nat) (i e o : Nat)
    (hR : Reaches p e i o) (hNT : NoTagBefore t p e i o)
    (hpo : parseBoxHeader p o e = none) :
    findBox t p i e = none :=
  findBoxFuel_none t p e (e + 1 - i) i o hR hNT hpo

theorem findBoxFuel_some (t p : List Nat) (e : Nat) :
    ∀ fuel i o S hsc, e - i < fuel → Reaches p e i o →
    NoTagBefore t p e i o → parseBoxHeader p o e = some (S, hsc, t) →
    findBoxFuel t p e fuel i = some (o, S, hsc) := by
  intro fuel
  induction fuel with
  | zero => intro i o S hsc hfu _ _ _; exact absurd hfu (by omega)
  | succ n ih =>
    intro i o S hsc hfu hR hNT hpo
    have hofacts := parseBoxHeader_facts p o e S hsc t hpo
    have hio := reaches_le p e i o hR
    have ho8 : o + 8 ≤ e := hofacts.2.2.2.2.2
    simp only [findBoxFuel]
    rw [if_neg (show ¬ e ≤ i by omega)]
    cases hR with
    | refl =>
      rw [hpo]
      simp only []
      rw [if_pos trivial]
    | step i o sz hd ty hp hrest =>
      have hfacts := parseBoxHeader_facts p i e sz hd ty hp
      have hle := reaches_le p e (i + sz) o hrest
      have hsz8 : 8 ≤ sz := le_trans hfacts.1 hfacts.2.1
      have hi8 : i + 8 ≤ e := hfacts.2.2.2.2.2
      have hty : ty ≠ t := hNT i sz hd ty (Reaches.refl i) (by omega) hp
      rw [hp]
      simp only []
      rw [if_neg hty]
      exact ih (i + sz) o S hsc (by omega) hrest
        (fun j szj hj tyj hRj hjo hpj =>
          hNT j szj hj tyj (Reaches.step i j sz hd ty hp hRj) hjo hpj) hpo

theorem findBox_intro_some (t p : List Nat) (i e o S hsc : Nat)
    (hR : Reaches p e i o) (hNT : NoTagBefore t p e i o)
    (hpo : parseBoxHeader p o e = some (S, hsc, t)) :
    findBox t p i e = some (o, S, hsc) :=
  findBoxFuel_some t p e (e + 1 - i) i o S hsc (by
    have h1 := reaches_le p e i o hR
    have h2 := (parseBoxHeader_facts p o e S hsc t hpo).2.2.2.2.2
    omega) hR hNT hpo

theorem toBytes_ok (w : Nat) (v : Int) (bs : List Nat)
    (h : toBytes w v = .ok bs) :
    0 ≤ v ∧ v < (256 : Int) ^ w ∧ bs = beBytes w v.toNat := by
  simp only [toBytes] at h
  by_cases hc : v < 0 ∨ (256 : Int) ^ w ≤ v
  · rw [if_pos hc] at h; exact Except.noConfusion h
  · rw [if_neg hc] at h
    push_neg at hc
    exact ⟨hc.1, hc.2, (Except.ok.inj h).symm⟩

theorem overwrite_length (l r : List Nat) (pos : Nat)
    (h : pos + r.length ≤ l.length) :
    (overwrite l pos r).length = l.length := by
  simp only [overwrite, List.length_append, List.length_take, List.length_drop]
  omega

theorem overwrite_getq_lt (l r : List Nat) (pos k : Nat) (hk : k < pos)
    (hp : pos ≤ l.length) :
    (overwrite l pos r)[k]? = l[k]? := by
  simp only [overwrite]
  rw [List.append_assoc,
    List.getElem?_append_left (show k < (l.take pos).length by
      simp only [List.length_take]; omega),
    List.getElem?_take_of_lt hk]

theorem patchExtents_shape (offSz lenSz idxSz : Nat) (useIdx : Bool) (d : Int) :
    ∀ n il cur r cur2,
    patchExtents offSz lenSz idxSz useIdx d n il cur = .ok (some (r, cur2)) →
    r.length = il.length ∧ cur ≤ cur2 ∧ ∀ k, k < cur → r[k]? = il[k]? := by
  intro n
  induction n with
  | zero =>
    intro il cur r cur2 h
    simp only [patchExtents] at h
    have h3 := Option.some.inj (Except.ok.inj h)
    simp only [Prod.mk.injEq] at h3
    obtain ⟨h4, h5⟩ := h3
    subst h4; subst h5
    exact ⟨rfl, le_refl _, fun k _ => rfl⟩
  | succ n ih =>
    intro il cur r cur2 h
    simp only [patchExtents] at h
    generalize hc1 : (if useIdx = true ∧ 0 < idxSz then cur + idxSz else cur)
      = cur1 at h
    have hcc : cur ≤ cur1 := by rw [← hc1]; split <;> omega
    by_cases hA : useIdx = true ∧ 0 < idxSz ∧ il.length < cur + idxSz
    · rw [if_pos hA] at h; exact Option.noConfusion (Except.ok.inj h)
    · rw [if_neg hA] at h
      by_cases hB : il.length < cur1 + offSz
      · rw [if_pos hB] at h; exact Option.noConfusion (Except.ok.inj h)
      · rw [if_neg hB] at h
        by_cases hOZ : 0 < offSz
        · rw [if_pos hOZ] at h
          simp only [writePatched] at h
          cases htb : toBytes offSz ((readBE il cur1 offSz : Int) + d) with
          | error u => rw [htb] at h; simp only [] at h; exact Except.noConfusion h
          | ok bs =>
            rw [htb] at h
            simp only [] at h
            obtain ⟨hv0, hvlt, hbs⟩ := toBytes_ok offSz _ bs htb
            have hbsl : bs.length = offSz := by rw [hbs]; exact beBytes_length _ _
            have hil2 : (overwrite il cur1 bs).length = il.length :=
              overwrite_length il bs cur1 (by omega)
            by_cases hC : (overwrite il cur1 bs).length < cur1 + offSz + lenSz
            · rw [if_pos hC] at h; exact Option.noConfusion (Except.ok.inj h)
            · rw [if_neg hC] at h
              have hrec := ih (overwrite il cur1 bs) (cur1 + offSz + lenSz) r cur2 h
              have hr2 := hrec.2.1
              refine ⟨hrec.1.trans hil2, by omega, ?_⟩
              intro k hk
              rw [hrec.2.2 k (by omega),
                overwrite_getq_lt il bs cur1 k (by omega) (by omega)]
        · rw [if_neg hOZ] at h
          simp only [] at h
          by_cases hC : il.length < cur1 + offSz + lenSz
          · rw [if_pos hC] at h; exact Option.noConfusion (Except.ok.inj h)
          · rw [if_neg hC] at h
            have hrec := ih il (cur1 + offSz + lenSz) r cur2 h
            have hr2 := hrec.2.1
            exact ⟨hrec.1, by omega, fun k hk => hrec.2.2 k (by omega)⟩

theorem patchItems_shape (version offSz lenSz baseSz idxSz : Nat) (d : Int) :
    ∀ n il cur r cur2,
    patchItems version offSz lenSz baseSz idxSz d n il cur = .ok (some (r, cur2)) →
    r.length = il.length ∧ cur ≤ cur2 ∧ ∀ k, k < cur → r[k]? = il[k]? := by
  intro n
  induction n with
  | zero =>
    intro il cur r cur2 h
    simp only [patchItems] at h
    have h3 := Option.some.inj (Except.ok.inj h)
    simp only [Prod.mk.injEq] at h3
    obtain ⟨h4, h5⟩ := h3
    subst h4; subst h5
    exact ⟨rfl, le_refl _, fun k _ => rfl⟩
  | succ n ih =>
    intro il cur r cur2 h
    simp only [patchItems] at h
    generalize hidw : (if version < 2 then (2 : Nat) else 4) = idw at h
    have hidw2 : 2 ≤ idw := by rw [← hidw]; split <;> omega
    by_cases h1 : il.length < cur + idw
    · rw [if_pos h1] at h; exact Option.noConfusion (Except.ok.inj h)
    rw [if_neg h1] at h
    by_cases h2 : (version = 1 ∨ version = 2) ∧ il.length < cur + idw + 2
    · rw [if_pos h2] at h; exact Option.noConfusion (Except.ok.inj h)
    rw [if_neg h2] at h
    generalize hc2 : (if version = 1 ∨ version = 2
      then cur + idw + 2 else cur + idw) = cur20 at h
    have hcc2 : cur + idw ≤ cur20 ∧ cur20 ≤ cur + idw + 2 := by
      rw [← hc2]; split <;> omega
    by_cases h3 : il.length < cur20 + 2
    · rw [if_pos h3] at h; exact Option.noConfusion (Except.ok.inj h)
    rw [if_neg h3] at h
    by_cases h4 : il.length < cur20 + 2 + baseSz
    · rw [if_pos h4] at h; exact Option.noConfusion (Except.ok.inj h)
    rw [if_neg h4] at h
    by_cases h5 : il.length < cur20 + 2 + baseSz + 2
    · rw [if_pos h5] at h; exact Option.noConfusion (Except.ok.inj h)
    rw [if_neg h5] at h
    cases hpe : patchExtents offSz lenSz idxSz (version = 1 ∨ version = 2) d
        (readBE il (cur20 + 2 + baseSz) 2) il (cur20 + 2 + baseSz + 2) with
    | error u =>
      rw [hpe] at h; simp only [] at h; exact Except.noConfusion h
    | ok oo =>
      cases oo with
      | none =>
        rw [hpe] at h; simp only [] at h
        exact Option.noConfusion (Except.ok.inj h)
      | some pr =>
        obtain ⟨il2, cur5⟩ := pr
        rw [hpe] at h
        simp only [] at h
        have hext := patchExtents_shape offSz lenSz idxSz _ d
          (readBE il (cur20 + 2 + baseSz) 2) il (cur20 + 2 + baseSz + 2)
          il2 cur5 hpe
        have hrec := ih il2 cur5 r cur2 h
        have he1 := hext.2.1
        have hr1 := hrec.2.1
        refine ⟨hrec.1.trans hext.1, by omega, ?_⟩
        intro k hk
        rw [hrec.2.2 k (by omega), hext.2.2 k (by omega)]

theorem patchIloc_shape (payload : List Nat) (d : Int) (out : List Nat)
    (h : patchIloc payload d = .ok out) :
    out.length = payload.length ∧ (out = payload ∨ ∃ c S hsc,
      findBox tagIloc payload 4 payload.length = some (c, S, hsc) ∧
      ∀ k, k < c + hsc + 4 ∨ c + S ≤ k → out[k]? = payload[k]?) := by
  simp only [patchIloc] at h
  by_cases h0 : payload.length < 4
  · rw [if_pos h0] at h
    have h2 := Except.ok.inj h
    subst h2
    exact ⟨rfl, Or.inl rfl⟩
  rw [if_neg h0] at h
  cases hfb : findBox tagIloc payload 4 payload.length with
  | none =>
    rw [hfb] at h
    simp only [] at h
    have h2 := Except.ok.inj h
    subst h2
    exact ⟨rfl, Or.inl rfl⟩
  | some rb =>
    obtain ⟨i, size, headerSize⟩ := rb
    rw [hfb] at h
    simp only [] at h
    generalize hiloc : sliceL payload i (i + size) = iloc at h
    have hfacts := findBox_facts tagIloc payload 4 payload.length
      i size headerSize hfb
    have hilen : iloc.length = size := by
      rw [← hiloc, sliceL_length payload i (i + size) (by omega)]
      omega
    by_cases hb1 : iloc.length < headerSize + 4 + 2
    · rw [if_pos hb1] at h
      have h2 := Except.ok.inj h
      subst h2
      exact ⟨rfl, Or.inl rfl⟩
    rw [if_neg hb1] at h
    generalize hver : iloc.getD 8 0 = ver at h
    by_cases hb2 : ¬(ver = 0 ∨ ver = 1 ∨ ver = 2)
    · rw [if_pos hb2] at h
      have h2 := Except.ok.inj h
      subst h2
      exact ⟨rfl, Or.inl rfl⟩
    rw [if_neg hb2] at h
    generalize hics : (if ver < 2 then (2 : Nat) else 4) = ics at h
    by_cases hb3 : iloc.length < headerSize + 4 + 2 + ics
    · rw [if_pos hb3] at h
      have h2 := Except.ok.inj h
      subst h2
      exact ⟨rfl, Or.inl rfl⟩
    rw [if_neg hb3] at h
    cases hpi : patchItems ver (iloc.getD (headerSize + 4) 0 / 16)
        (iloc.getD (headerSize + 4) 0 % 16)
        (iloc.getD (headerSize + 4 + 1) 0 / 16)
        (if ver = 1 ∨ ver = 2 then iloc.getD (headerSize + 4 + 1) 0 % 16 else 0)
        d (readBE iloc (headerSize + 4 + 2) ics) iloc
        (headerSize + 4 + 2 + ics) with
    | error u =>
      rw [hpi] at h; simp only [] at h; exact Except.noConfusion h
    | ok oo =>
      cases oo with
      | none =>
        rw [hpi] at h
        simp only [] at h
        have h2 := Except.ok.inj h
        subst h2
        exact ⟨rfl, Or.inl rfl⟩
      | some pr =>
        obtain ⟨il2, cur5⟩ := pr
        rw [hpi] at h
        simp only [] at h
        have h2 := (Except.ok.inj h).symm
        have hshape := patchItems_shape ver _ _ _ _ d _ iloc
          (headerSize + 4 + 2 + ics) il2 cur5 hpi
        have hil2 : il2.length = size := hshape.1.trans hilen
        have htl : (payload.take i).length = i := by
          simp only [List.length_take]; omega
        have houtl : out.length = payload.length := by
          rw [h2]
          simp only [List.length_append, List.length_take, List.length_drop]
          omega
        refine ⟨houtl, Or.inr ⟨i, size, headerSize, rfl, ?_⟩⟩
        intro k hk
        rw [h2, getq_app3, htl, hil2]
        by_cases hki : k < i
        · rw [if_pos hki, List.getElem?_take_of_lt hki]
        · rw [if_neg hki]
          by_cases hks : k < i + size
          · rw [if_pos hks]
            have hkiloc : k - i < headerSize + 4 + 2 + ics := by omega
            rw [hshape.2.2 (k - i) hkiloc, ← hiloc, sliceL_getq,
              if_pos (by omega)]
            congr 1
            omega
          · rw [if_neg hks, List.getElem?_drop]
            congr 1
            omega

set_option maxHeartbeats 1000000 in
theorem inject_then_noop (data d : List Nat)
    (h : injectHandlerDescription data libavifBytes = .ok (some d)) :
    injectHandlerDescription d libavifBytes = .ok none := by
  simp only [injectHandlerDescription] at h
  cases hm : findBox tagMeta data 0 data.length with
  | none => rw [hm] at h; exact Option.noConfusion (Except.ok.inj h)
  | some rm =>
  obtain ⟨mo, ms, mh⟩ := rm
  rw [hm] at h
  simp only [] at h
  by_cases hg1 : data.length < mo + ms ∨ mo + ms < mo + mh + 4
  · rw [if_pos hg1] at h; exact Option.noConfusion (Except.ok.inj h)
  rw [if_neg hg1] at h
  set mp := sliceL data (mo + mh) (mo + ms) with hmpdef
  cases hh : findBox tagHdlr mp 4 mp.length with
  | none => rw [hh] at h; exact Option.noConfusion (Except.ok.inj h)
  | some rh =>
  obtain ⟨h1, hs, hhd⟩ := rh
  rw [hh] at h
  simp only [] at h
  set hpay := sliceL mp (h1 + hhd) (h1 + hs) with hpaydef
  by_cases hg2 : hpay.length < 24
  · rw [if_pos hg2] at h; exact Option.noConfusion (Except.ok.inj h)
  rw [if_neg hg2] at h
  set cn := hpay.drop 24 with hcndef
  by_cases hg3 : ¬(cn = [] ∨ cn = [0])
  · rw [if_pos hg3] at h; exact Option.noConfusion (Except.ok.inj h)
  rw [if_neg hg3] at h
  simp only [show (libavifBytes ++ [0]).length = 8 from rfl] at h
  by_cases hg4 : 8 ≤ cn.length
  · rw [if_pos hg4] at h; exact Option.noConfusion (Except.ok.inj h)
  rw [if_neg hg4] at h
  set dN := 8 - cn.length with hdNdef
  cases htb1 : toBytes 4 ((hs : Int) + (dN : Int)) with
  | error u => rw [htb1] at h; simp only [] at h; exact Except.noConfusion h
  | ok sb1 =>
  rw [htb1] at h
  simp only [] at h
  set upd := mp.take h1 ++ (sb1 ++ tagHdlr ++ (hpay.take 24 ++ (libavifBytes ++ [0])))
    ++ mp.drop (h1 + hs) with hupddef
  cases hpil : patchIloc upd (dN : Int) with
  | error u => rw [hpil] at h; simp only [] at h; exact Except.noConfusion h
  | ok updated2 =>
  rw [hpil] at h
  simp only [] at h
  cases htb2 : toBytes 4 ((ms : Int) + (dN : Int)) with
  | error u => rw [htb2] at h; simp only [] at h; exact Except.noConfusion h
  | ok sb2 =>
  rw [htb2] at h
  simp only [] at h
  have hdd : d = data.take mo ++ (sb2 ++ tagMeta ++ updated2)
      ++ data.drop (mo + ms) := (Option.some.inj (Except.ok.inj h)).symm
  -- ===== facts from the first run =====
  obtain ⟨Rm, Pm, NTm⟩ := findBox_elim tagMeta data 0 data.length mo ms mh hm
  have Pmf := parseBoxHeader_facts data mo data.length ms mh tagMeta Pm
  push_neg at hg1 hg2 hg3 hg4
  have hA1 : 8 ≤ mh := Pmf.1
  have hA2 : mh ≤ ms := Pmf.2.1
  have hA3 : mo + ms ≤ data.length := Pmf.2.2.1
  have hA4 : mo + 8 ≤ data.length := Pmf.2.2.2.2.2
  have hA5 : mh + 4 ≤ ms := by omega
  have hmplen : mp.length = ms - mh := by
    rw [hmpdef, sliceL_length data (mo + mh) (mo + ms) (by omega)]
    omega
  obtain ⟨Rh, Ph, NTh⟩ := findBox_elim tagHdlr mp 4 mp.length h1 hs hhd hh
  have Phf := parseBoxHeader_facts mp h1 mp.length hs hhd tagHdlr Ph
  have h14 : 4 ≤ h1 := reaches_le mp mp.length 4 h1 Rh
  have hB1 : 8 ≤ hhd := Phf.1
  have hB2 : hhd ≤ hs := Phf.2.1
  have hB3 : h1 + hs ≤ mp.length := Phf.2.2.1
  have hpaylen : hpay.length = hs - hhd := by
    rw [hpaydef, sliceL_length mp (h1 + hhd) (h1 + hs) (by omega)]
    omega
  have hB5 : 24 ≤ hs - hhd := by omega
  have hcnval : cn.length = hs - hhd - 24 := by
    simp only [hcndef, List.length_drop, hpaylen]
  have hcnlen : cn.length ≤ 1 := by
    rcases hg3 with hc | hc <;> rw [hc] <;> simp
  obtain ⟨hv1a, hv1b, hsb1val⟩ := toBytes_ok 4 _ sb1 htb1
  obtain ⟨hv2a, hv2b, hsb2val⟩ := toBytes_ok 4 _ sb2 htb2
  have h2564 : ((256 : Int) ^ 4) = 4294967296 := by norm_num
  have h2564n : ((256 : Nat) ^ 4) = 4294967296 := by norm_num
  have hnhs32 : hs + dN < 4294967296 := by rw [h2564] at hv1b; omega
  have hnms32 : ms + dN < 4294967296 := by rw [h2564] at hv2b; omega
  have hsb1t : sb1 = beBytes 4 (hs + dN) := by rw [hsb1val]; congr 1
  have hsb2t : sb2 = beBytes 4 (ms + dN) := by rw [hsb2val]; congr 1
  have hsb1len : sb1.length = 4 := by rw [hsb1t]; exact beBytes_length _ _
  have hsb2len : sb2.length = 4 := by rw [hsb2t]; exact beBytes_length _ _
  have hsh := patchIloc_shape upd (dN : Int) updated2 hpil
  have hupdlen : upd.length = ms - mh + 40 - hs := by
    rw [hupddef]
    simp only [List.length_append, List.length_take, List.length_drop, hsb1len,
      show tagHdlr.length = 4 from rfl,
      show (libavifBytes ++ ([0] : List Nat)).length = 8 from rfl]
    omega
  have hu2len : updated2.length = ms - mh + 40 - hs := hsh.1.trans hupdlen
  have htkmo : (data.take mo).length = mo := by
    simp only [List.length_take]; omega
  have hdq1 : ∀ k, k < mo → d[k]? = data[k]? := by
    intro k hk
    rw [hdd, getq_app3, htkmo, if_pos hk, List.getElem?_take_of_lt hk]
  have hymid : (sb2 ++ tagMeta ++ updated2).length = 8 + updated2.length := by
    simp only [List.length_append, hsb2len, show tagMeta.length = 4 from rfl]
  have hdq2 : ∀ m, m < 8 + updated2.length →
      d[mo + m]? = (sb2 ++ tagMeta ++ updated2)[m]? := by
    intro m hm
    rw [hdd, getq_app3, htkmo, if_neg (by omega),
      if_pos (by rw [hymid]; omega), Nat.add_sub_cancel_left]
  have hdlen : d.length = data.length - ms + 8 + updated2.length := by
    rw [hdd]
    simp only [List.length_append, List.length_take, List.length_drop, hsb2len,
      show tagMeta.length = 4 from rfl]
    omega
  have hrbmo : readBE d mo 4 = ms + dN := by
    have hsl : sliceL d mo (mo + 4) = beBytes 4 (ms + dN) := by
      apply List.ext_getElem?
      intro m
      rw [sliceL_getq]
      by_cases hm4 : m < 4
      · rw [if_pos (by omega), hdq2 m (by omega), getq_app3, hsb2len,
          if_pos hm4, hsb2t]
      · rw [if_neg (by omega),
          show (beBytes 4 (ms + dN))[m]? = none from
            List.getElem?_eq_none_iff.mpr (by rw [beBytes_length]; omega)]
    show beVal (sliceL d mo (mo + 4)) = ms + dN
    rw [hsl]
    exact beVal_beBytes_of_lt 4 (ms + dN) (by omega)
  have hTm := reaches_transfer tagMeta data d data.length d.length 0 0 0 mo
    Rm NTm (by omega) (by omega) (Or.inl le_rfl) (fun k hk _ => hdq1 k hk)
  by_cases hB : mo + (ms + dN) ≤ d.length
  case neg =>
    have hpn : parseBoxHeader d mo d.length = none :=
      parse_none_big d mo d.length (ms + dN) hrbmo (by omega) (by omega)
        (by omega)
    have hfb2 : findBox tagMeta d 0 d.length = none :=
      findBox_intro_none tagMeta d 0 d.length mo hTm.1 hTm.2 hpn
    simp only [injectHandlerDescription, hfb2]
  case pos =>
  -- ===== the second run finds the rebuilt meta and hdlr boxes =====
  set mp2 := sliceL d (mo + 8) (mo + (ms + dN)) with hmp2def
  have hmp2len : mp2.length = ms + dN - 8 := by
    rw [hmp2def, sliceL_length d (mo + 8) (mo + (ms + dN)) hB]
    omega
  have hu2b : updated2.length ≤ ms + dN - 8 := by omega
  have hh1b : h1 + 40 ≤ updated2.length := by omega
  have hmp2q : ∀ k, k < updated2.length → mp2[k]? = updated2[k]? := by
    intro k hk
    rw [hmp2def, sliceL_getq, if_pos (by omega),
      show mo + 8 + k = mo + (8 + k) by omega, hdq2 (8 + k) (by omega),
      getq_app3, hsb2len, show tagMeta.length = 4 from rfl,
      if_neg (by omega), if_neg (by omega), show 8 + k - 4 - 4 = k by omega]
  have htkh1 : (mp.take h1).length = h1 := by
    simp only [List.length_take]; omega
  have hupdq_lt : ∀ k, k < h1 → upd[k]? = mp[k]? := by
    intro k hk
    rw [hupddef, getq_app3, htkh1, if_pos hk, List.getElem?_take_of_lt hk]
  have hnblen : (sb1 ++ tagHdlr ++
      (hpay.take 24 ++ (libavifBytes ++ [0]))).length = 40 := by
    simp only [List.length_append, List.length_take, hsb1len,
      show tagHdlr.length = 4 from rfl,
      show (libavifBytes ++ ([0] : List Nat)).length = 8 from rfl]
    omega
  have hnb : ∀ m, m < 40 → upd[h1 + m]? =
      (sb1 ++ tagHdlr ++ (hpay.take 24 ++ (libavifBytes ++ [0])))[m]? := by
    intro m hm
    rw [hupddef, getq_app3, htkh1, if_neg (by omega),
      if_pos (by rw [hnblen]; omega), Nat.add_sub_cancel_left]
  have hnbval : ∀ m, m < 4 →
      (sb1 ++ tagHdlr ++ (hpay.take 24 ++ (libavifBytes ++ [0])))[m]? =
      (beBytes 4 (hs + dN))[m]? := by
    intro m hm
    rw [getq_app3, hsb1len, if_pos hm, hsb1t]
  have hnbty : ∀ m, m < 4 →
      (sb1 ++ tagHdlr ++ (hpay.take 24 ++ (libavifBytes ++ [0])))[4 + m]? =
      tagHdlr[m]? := by
    intro m hm
    rw [getq_app3, hsb1len, show tagHdlr.length = 4 from rfl,
      if_neg (by omega), if_pos (by omega), Nat.add_sub_cancel_left]
  have htk24 : (hpay.take 24).length = 24 := by
    simp only [List.length_take]; omega
  have hnbname : (sb1 ++ tagHdlr ++
      (hpay.take 24 ++ (libavifBytes ++ [0])))[32]? = some 108 := by
    rw [getq_app3, hsb1len, show tagHdlr.length = 4 from rfl,
      if_neg (by omega), if_neg (by omega),
      show (32 : Nat) - 4 - 4 = 24 from rfl,
      List.getElem?_append_right (by rw [htk24]), htk24]
    rfl
  have hkey : Reaches mp2 mp2.length 4 h1 ∧
      NoTagBefore tagHdlr mp2 mp2.length 4 h1 ∧
      ∀ k, h1 ≤ k → k < h1 + 40 → updated2[k]? = upd[k]? := by
    rcases hsh.2 with hsame | ⟨c, S, hsc, hfbiloc, hagreeU⟩
    · have hTin := reaches_transfer tagHdlr mp mp2 mp.length mp2.length 0 0
        4 h1 Rh NTh (by omega) (by omega) (Or.inl le_rfl)
        (fun k hk _ => by rw [hmp2q k (by omega), hsame, hupdq_lt k hk])
      exact ⟨hTin.1, hTin.2, fun k _ _ => by rw [hsame]⟩
    · obtain ⟨RcU, PcU, NTcU⟩ :=
        findBox_elim tagIloc upd 4 upd.length c S hsc hfbiloc
      have Pcf := parseBoxHeader_facts upd c upd.length S hsc tagIloc PcU
      have hC1 : c + 8 ≤ upd.length := Pcf.2.2.2.2.2
      have hC2 : 8 ≤ hsc := Pcf.1
      have hC3 : hsc ≤ S := Pcf.2.1
      have hC4 : c + S ≤ upd.length := Pcf.2.2.1
      rcases Nat.lt_trichotomy c h1 with hch | hch | hch
      · -- the iloc box sits entirely below the new hdlr box
        have hTc := reaches_transfer tagIloc upd mp upd.length mp.length 0 0
          4 c RcU NTcU (by omega) (by omega) (Or.inl le_rfl)
          (fun k hk _ => (hupdq_lt k (by omega)).symm)
        have hlin := reaches_linear mp mp.length 4 c h1 hTc.1 Rh
          (le_of_lt hch)
        cases hlin with
        | refl => omega
        | step c h1x szc hdc tyc hpc hrestc =>
          have hchx : c + szc ≤ h1 := reaches_le mp mp.length (c + szc) h1 hrestc
          have pcf2 := parseBoxHeader_facts mp c mp.length szc hdc tyc hpc
          have hD1 : 8 ≤ hdc := pcf2.1
          have hD2 : hdc ≤ szc := pcf2.2.1
          have hnzc : readBE mp c 4 ≠ 0 := by
            intro h0
            have := parse_size0 mp c mp.length szc hdc tyc hpc h0
            omega
          have hpcU := parse_transfer mp upd c mp.length upd.length szc hdc tyc
            hpc hnzc (fun k hk => hupdq_lt (c + k) (by omega)) (by omega)
          rw [PcU] at hpcU
          have h3 := Option.some.inj hpcU
          simp only [Prod.mk.injEq] at h3
          obtain ⟨hS, hhsc, hty⟩ := h3
          have Hloc : ∀ k, h1 ≤ k → k < h1 + 40 → updated2[k]? = upd[k]? :=
            fun k hk1 _ => hagreeU k (Or.inr (by omega))
          have hTin := reaches_transfer tagHdlr mp mp2 mp.length mp2.length
            (c + hsc + 4) (c + S) 4 h1 Rh NTh (by omega) (by omega)
            (Or.inr (Or.inr ⟨c, szc, hdc, tyc, hTc.1, hpc, by omega, by omega⟩))
            (fun k hk hcond => by
              rw [hmp2q k (by omega), hagreeU k hcond, hupdq_lt k hk])
          exact ⟨hTin.1, hTin.2, Hloc⟩
      · -- the iloc box cannot be the rebuilt hdlr box itself
        subst hch
        have hslty : sliceL upd (c + 4) (c + 8) = tagHdlr := by
          apply List.ext_getElem?
          intro m
          rw [sliceL_getq]
          by_cases hm4 : m < 4
          · rw [if_pos (by omega), show c + 4 + m = c + (4 + m) by omega,
              hnb (4 + m) (by omega), hnbty m hm4]
          · rw [if_neg (by omega),
              show tagHdlr[m]? = none from
                List.getElem?_eq_none_iff.mpr (by
                  rw [show tagHdlr.length = 4 from rfl]; omega)]
        exact absurd (Pcf.2.2.2.2.1.trans hslty) (by decide)
      · -- the iloc box sits beyond the rebuilt hdlr box
        have hTh2 := reaches_transfer tagHdlr mp upd mp.length upd.length 0 0
          4 h1 Rh NTh (by omega) (by omega) (Or.inl le_rfl)
          (fun k hk _ => hupdq_lt k hk)
        have hlin := reaches_linear upd upd.length 4 h1 c hTh2.1 RcU
          (le_of_lt hch)
        cases hlin with
        | refl => omega
        | step h1x cx szh hdh tyh hph hresth =>
          have hcge : h1 + szh ≤ c := reaches_le upd upd.length (h1 + szh) c hresth
          have hrbu : readBE upd h1 4 = hs + dN := by
            have hsl : sliceL upd h1 (h1 + 4) = beBytes 4 (hs + dN) := by
              apply List.ext_getElem?
              intro m
              rw [sliceL_getq]
              by_cases hm4 : m < 4
              · rw [if_pos (by omega), hnb m (by omega), hnbval m hm4]
              · rw [if_neg (by omega),
                  show (beBytes 4 (hs + dN))[m]? = none from
                    List.getElem?_eq_none_iff.mpr (by
                      rw [beBytes_length]; omega)]
            show beVal (sliceL upd h1 (h1 + 4)) = hs + dN
            rw [hsl]
            exact beVal_beBytes_of_lt 4 (hs + dN) (by omega)
          obtain ⟨hszh, hhdh⟩ := parse_plain_elim upd h1 upd.length szh hdh tyh
            hph (by rw [hrbu]; omega) (by rw [hrbu]; omega)
          rw [hrbu] at hszh
          have Hloc : ∀ k, h1 ≤ k → k < h1 + 40 → updated2[k]? = upd[k]? :=
            fun k _ hk2 => hagreeU k (Or.inl (by omega))
          have hTin := reaches_transfer tagHdlr mp mp2 mp.length mp2.length 0 0
            4 h1 Rh NTh (by omega) (by omega) (Or.inl le_rfl)
            (fun k hk _ => by
              rw [hmp2q k (by omega), hagreeU k (Or.inl (by omega)),
                hupdq_lt k hk])
          exact ⟨hTin.1, hTin.2, Hloc⟩
  have hmp2nb : ∀ m, m < 40 → mp2[h1 + m]? =
      (sb1 ++ tagHdlr ++ (hpay.take 24 ++ (libavifBytes ++ [0])))[m]? := by
    intro m hm
    rw [hmp2q (h1 + m) (by omega), hkey.2.2 (h1 + m) (by omega) (by omega),
      hnb m hm]
  have hrb2 : readBE mp2 h1 4 = hs + dN := by
    have hsl : sliceL mp2 h1 (h1 + 4) = beBytes 4 (hs + dN) := by
      apply List.ext_getElem?
      intro m
      rw [sliceL_getq]
      by_cases hm4 : m < 4
      · rw [if_pos (by omega), hmp2nb m (by omega), hnbval m hm4]
      · rw [if_neg (by omega),
          show (beBytes 4 (hs + dN))[m]? = none from
            List.getElem?_eq_none_iff.mpr (by rw [beBytes_length]; omega)]
    show beVal (sliceL mp2 h1 (h1 + 4)) = hs + dN
    rw [hsl]
    exact beVal_beBytes_of_lt 4 (hs + dN) (by omega)
  have hslty2 : sliceL mp2 (h1 + 4) (h1 + 8) = tagHdlr := by
    apply List.ext_getElem?
    intro m
    rw [sliceL_getq]
    by_cases hm4 : m < 4
    · rw [if_pos (by omega), show h1 + 4 + m = h1 + (4 + m) by omega,
        hmp2nb (4 + m) (by omega), hnbty m hm4]
    · rw [if_neg (by omega),
        show tagHdlr[m]? = none from
          List.getElem?_eq_none_iff.mpr (by
            rw [show tagHdlr.length = 4 from rfl]; omega)]
  have hp2 : parseBoxHeader mp2 h1 mp2.length = some (hs + dN, 8, tagHdlr) := by
    rw [← hslty2]
    exact parse_plain_intro mp2 h1 mp2.length (hs + dN) hrb2 (by omega)
      (by omega) (by omega) (by omega)
  have hfbh2 : findBox tagHdlr mp2 4 mp2.length = some (h1, hs + dN, 8) :=
    findBox_intro_some tagHdlr mp2 4 mp2.length h1 (hs + dN) 8
      hkey.1 hkey.2.1 hp2
  have hpay2len : (sliceL mp2 (h1 + 8) (h1 + (hs + dN))).length =
      hs + dN - 8 := by
    rw [sliceL_length mp2 (h1 + 8) (h1 + (hs + dN)) (by omega)]
    omega
  have hname : ((sliceL mp2 (h1 + 8) (h1 + (hs + dN))).drop 24)[0]? =
      some 108 := by
    rw [List.getElem?_drop, sliceL_getq, if_pos (by omega),
      show h1 + 8 + (24 + 0) = h1 + 32 by omega, hmp2nb 32 (by omega), hnbname]
  have hcnne : ¬((sliceL mp2 (h1 + 8) (h1 + (hs + dN))).drop 24 = [] ∨
      (sliceL mp2 (h1 + 8) (h1 + (hs + dN))).drop 24 = [0]) := by
    intro hc
    rcases hc with hc | hc <;> rw [hc] at hname <;> simp at hname
  have hslm : sliceL d (mo + 4) (mo + 8) = tagMeta := by
    apply List.ext_getElem?
    intro m
    rw [sliceL_getq]
    by_cases hm4 : m < 4
    · rw [if_pos (by omega), show mo + 4 + m = mo + (4 + m) by omega,
        hdq2 (4 + m) (by omega), getq_app3, hsb2len,
        show tagMeta.length = 4 from rfl, if_neg (by omega),
        if_pos (by omega), Nat.add_sub_cancel_left]
    · rw [if_neg (by omega),
        show tagMeta[m]? = none from
          List.getElem?_eq_none_iff.mpr (by
            rw [show tagMeta.length = 4 from rfl]; omega)]
  have hpd : parseBoxHeader d mo d.length = some (ms + dN, 8, tagMeta) := by
    rw [← hslm]
    exact parse_plain_intro d mo d.length (ms + dN) hrbmo (by omega) (by omega)
      (by omega) hB
  have hfbd : findBox tagMeta d 0 d.length = some (mo, ms + dN, 8) :=
    findBox_intro_some tagMeta d 0 d.length mo (ms + dN) 8 hTm.1 hTm.2 hpd
  simp only [injectHandlerDescription]
  rw [hfbd]
  simp only []
  rw [if_neg (show ¬(d.length < mo + (ms + dN) ∨
    mo + (ms + dN) < mo + 8 + 4) by omega)]
  rw [← hmp2def, hfbh2]
  simp only []
  rw [if_neg (show ¬(sliceL mp2 (h1 + 8) (h1 + (hs + dN))).length < 24 by
    rw [hpay2len]; omega)]
  rw [if_pos hcnne]


/-- C5: the Handler-Descriptor Injector is idempotent on the bytes on
disk: running it a second time on the result of a first run leaves the
buffer identical, because after a successful write the rebuilt hdlr box's
name field starts with the nonempty description, so the second run's
name-already-populated check makes it a no-op (and a first run that wrote
nothing leaves the file unchanged anyway). -/
theorem c5_injector_idempotent (data : List Nat) :
    afterInject (afterInject data) = afterInject data := by
  cases hinj : injectHandlerDescription data libavifBytes with
  | error u =>
    have hA : afterInject data = data := by
      unfold afterInject
      rw [hinj]
    rw [hA]
    exact hA
  | ok oo =>
    cases oo with
    | none =>
      have hA : afterInject data = data := by
        unfold afterInject
        rw [hinj]
      rw [hA]
      exact hA
    | some dd =>
      have hA : afterInject data = dd := by
        unfold afterInject
        rw [hinj]
      have hno := inject_then_noop data dd hinj
      have hB : afterInject dd = dd := by
        unfold afterInject
        rw [hno]
      rw [hA, hB]
